import Mathlib

/-!
Shallow embedding of the `trashmap` Rust crate (file `src/lib.rs`): a
separate-chaining hash map `TrashMap` built from a vector of `Bucket`s,
with prime bucket counts and load-factor-driven growth.

Modelling conventions, recorded once here:

* Rust `usize`/`u64` values that never overflow in the modelled code are
  embedded as `Nat`.  The one truncating operation the code performs,
  `hasher.finish() % (len as u64)`, is embedded as `hashFn key % len`
  where `hashFn : K → Nat` stands for the (deterministic, unspecified)
  64-bit output of `DefaultHasher`.
* `(number as f32).sqrt().ceil() as usize` in `is_prime` is embedded as
  the exact natural ceiling square root `closest_sqrt_integer`; for every
  `number < 2 ^ 24` the `f32` conversion is exact and `f32` square root is
  correctly rounded, so the two agree there.
* `compute_load_factor() > 0.75` compares `elements as f32 / len as f32`
  with `0.75`.  The embedded test `4 * elements > 3 * len` agrees with it
  exactly while `elements` and `len` are below `2 ^ 24`
  (`load_factor_f32_agrees_below`), which covers every reachable state up
  to bucket count 11229331; at the next reachable bucket count 22458671
  the two part ways — the `f32` division yields exactly `0.75` where the
  integer test already triggers — so the embedded trigger is eager from
  that point on.  The faithful comparison is modelled separately as
  `compute_load_factor_exceeds_f32`, and the divergence is recorded at
  `claim_C6`.
* The `while !is_prime(candidate)` loop of `find_next_prime` is embedded
  with structural fuel (`fnpFuel`); `fnpFuel_isPrime` below proves the
  fuel is never exhausted on the odd inputs the program passes, so the
  embedding agrees with the Rust loop on those inputs.
* `self.elements -= 1` in `remove` is embedded as truncating `Nat`
  subtraction; the reachable-state invariant `sumChains s ≤ s.elements`
  shows the subtraction never underflows when it is executed.
-/

namespace Trash

/-- One bucket: the collision chain of key-value pairs, as in
`struct Bucket<K, V> { chain: LinkedList<(K, V)> }`. -/
structure Bucket (K V : Type) where
  chain : List (K × V)
deriving DecidableEq

variable {K V : Type} [DecidableEq K]

/-- The scan-and-overwrite loop inside `Bucket::insert`: walk the chain,
replace the value of the first entry whose key equals `key`, and report
`none` when no entry matched (the Rust loop then falls through to
`push_front`). -/
def overwriteFirst (key : K) (value : V) : List (K × V) → Option (List (K × V))
  | [] => none
  | e :: rest =>
    if e.1 = key then some ((e.1, value) :: rest)
    else (overwriteFirst key value rest).map (e :: ·)

/-- `Bucket::insert`: on an empty chain, `push_back`; otherwise overwrite
the first entry with an equal key in place, and if none matches,
`push_front` the new pair. -/
def Bucket.insert (b : Bucket K V) (key : K) (value : V) : Bucket K V :=
  if b.chain.isEmpty then ⟨b.chain ++ [(key, value)]⟩
  else
    match overwriteFirst key value b.chain with
    | some c => ⟨c⟩
    | none => ⟨(key, value) :: b.chain⟩

/-- The scan loop of `Bucket::get`: first entry with an equal key. -/
def chainGet (key : K) : List (K × V) → Option V
  | [] => none
  | e :: rest => if e.1 = key then some e.2 else chainGet key rest

/-- `Bucket::get`, including its redundant empty-chain shortcut. -/
def Bucket.get (b : Bucket K V) (key : K) : Option V :=
  if b.chain.length = 0 then none else chainGet key b.chain

/-- The scan of `Bucket::remove`: drop the first entry with an equal key
(`split_off i`, `pop_front`, `append` in the Rust code removes exactly the
element at index `i`), returning `none` when no entry matched. -/
def chainRemove (key : K) : List (K × V) → Option (List (K × V))
  | [] => none
  | e :: rest =>
    if e.1 = key then some rest
    else (chainRemove key rest).map (e :: ·)

/-- `Bucket::remove`: `true` and the shortened chain when a matching entry
was found, `false` and the unchanged bucket otherwise. -/
def Bucket.remove (b : Bucket K V) (key : K) : Bool × Bucket K V :=
  if b.chain.length = 0 then (false, b)
  else
    match chainRemove key b.chain with
    | some c => (true, ⟨c⟩)
    | none => (false, b)

/-- `TRASH_MAP_START_SIZE`. -/
def TRASH_MAP_START_SIZE : Nat := 3

/-- Search loop for the ceiling square root: the least `r`, starting from
the given one, with `number ≤ r * r` (fuel makes the recursion structural
and therefore kernel-computable; fuel `number` always suffices). -/
def csiAux (number : Nat) : Nat → Nat → Nat
  | 0, r => r
  | fuel + 1, r => if number ≤ r * r then r else csiAux number fuel (r + 1)

/-- Exact natural version of `(number as f32).sqrt().ceil() as usize`: the
least `r` with `number ≤ r * r` (agrees with the `f32` computation for
`number < 2 ^ 24`, see the header comment; `closest_sqrt_integer_eq_sqrt`
below identifies it with the usual `Nat.sqrt`-based ceiling). -/
def closest_sqrt_integer (number : Nat) : Nat :=
  csiAux number number 0

/-- `is_prime`: reject even numbers (`number & 1 == 0` is `number % 2 = 0`),
then trial-divide by every `i` in the half-open range
`3..closest_sqrt_integer number`, exactly as the Rust `for` loop does. -/
def is_prime (number : Nat) : Bool :=
  if number % 2 == 0 then false
  else (List.range' 3 (closest_sqrt_integer number - 3)).all
    fun i => number % i != 0

/-- Fuelled version of the `while !is_prime(candidate)` loop of
`find_next_prime`; each loop iteration adds 2 to the candidate. -/
def fnpFuel : Nat → Nat → Nat
  | 0, candidate => candidate
  | fuel + 1, candidate =>
    if is_prime candidate then candidate else fnpFuel fuel (candidate + 2)

/-- `find_next_prime`: first candidate accepted by `is_prime`, starting at
`prime` and stepping by 2.  Fuel `prime` suffices for every odd input by
Bertrand, see `fnpFuel_isPrime`. -/
def find_next_prime (prime : Nat) : Nat := fnpFuel prime prime

/-- `struct TrashMap<K, V>`. -/
structure TrashMap (K V : Type) where
  buckets : List (Bucket K V)
  elements : Nat
deriving DecidableEq

variable (hashFn : K → Nat)

/-- `TrashMap::make_buckets`: `count` fresh empty buckets. -/
def make_buckets (count : Nat) : List (Bucket K V) :=
  List.replicate count ⟨[]⟩

/-- `TrashMap::new`. -/
def TrashMap.new : TrashMap K V :=
  ⟨make_buckets TRASH_MAP_START_SIZE, 0⟩

/-- `TrashMap::hash`: the 64-bit hash of the key reduced modulo the bucket
count (`hashFn` stands for the `DefaultHasher` output, header comment). -/
def TrashMap.hash (len : Nat) (key : K) : Nat :=
  hashFn key % len

/-- `TrashMap::insert_into_buckets`: index the bucket selected by the hash
and delegate to `Bucket::insert`.  (Lean total-function reading of the
indexing; `hash_lt_length` below shows the index is in bounds whenever the
bucket list is nonempty, as in every reachable state.) -/
def insert_into_buckets (bs : List (Bucket K V)) (key : K) (value : V) :
    List (Bucket K V) :=
  let h := TrashMap.hash hashFn bs.length key
  bs.set h ((bs.getD h ⟨[]⟩).insert key value)

/-- `TrashMap::grow`: next candidate-prime size from `len * 2 + 1`, fresh
buckets of that size, and re-insert every stored pair in iteration order;
`elements` is untouched. -/
def TrashMap.grow (s : TrashMap K V) : TrashMap K V :=
  let new_size := find_next_prime (s.buckets.length * 2 + 1)
  let pairs := (s.buckets.map Bucket.chain).flatten
  ⟨pairs.foldl (fun bs e => insert_into_buckets hashFn bs e.1 e.2)
      (make_buckets new_size),
    s.elements⟩

/-- `TrashMap::insert`: insert into the current buckets, unconditionally
increment `elements`, then grow if the load factor exceeds
`TRASH_MAP_LOAD_FACTOR_THRESH = 0.75` (embedded as the integer test
`4 * elements > 3 * len`, which matches the `f32` comparison exactly
below `2 ^ 24` and is eager above it — header comment and `claim_C6`). -/
def TrashMap.insert (s : TrashMap K V) (key : K) (value : V) : TrashMap K V :=
  let s1 : TrashMap K V :=
    ⟨insert_into_buckets hashFn s.buckets key value, s.elements + 1⟩
  if 4 * s1.elements > 3 * s1.buckets.length then s1.grow hashFn else s1

/-- `TrashMap::remove`: delegate to the hashed bucket, decrement `elements`
only when that bucket reports a removal, and return the report. -/
def TrashMap.remove (s : TrashMap K V) (key : K) : Bool × TrashMap K V :=
  let h := TrashMap.hash hashFn s.buckets.length key
  match (s.buckets.getD h ⟨[]⟩).remove key with
  | (true, b) => (true, ⟨s.buckets.set h b, s.elements - 1⟩)
  | (false, _) => (false, s)

/-- `TrashMap::len`. -/
def TrashMap.len (s : TrashMap K V) : Nat := s.elements

/-- `TrashMap::get`: delegate to the hashed bucket. -/
def TrashMap.get (s : TrashMap K V) (key : K) : Option V :=
  let h := TrashMap.hash hashFn s.buckets.length key
  (s.buckets.getD h ⟨[]⟩).get key

/-- `TrashMap::iter`: all chains concatenated in bucket-array order, each
chain in its own order. -/
def TrashMap.iter (s : TrashMap K V) : List (K × V) :=
  (s.buckets.map Bucket.chain).flatten

/-- Total number of stored pairs: the sum of all chain lengths. -/
def sumChains (s : TrashMap K V) : Nat :=
  (s.buckets.map fun b => b.chain.length).sum

end Trash

namespace Trash

/-! ### Arithmetic helpers: ceiling square root, `is_prime`, `find_next_prime` -/

theorem le_sq_csiAux (number : Nat) : ∀ (fuel r : Nat),
    number ≤ (r + fuel) * (r + fuel) →
    number ≤ csiAux number fuel r * csiAux number fuel r := by
  intro fuel
  induction fuel with
  | zero => intro r h; simpa using h
  | succ f ih =>
    intro r h
    unfold csiAux
    split
    · assumption
    · exact ih (r + 1) (by ring_nf; ring_nf at h; omega)

theorem sq_lt_of_lt_csiAux (number : Nat) : ∀ (fuel r : Nat),
    (∀ m, m < r → m * m < number) →
    ∀ m, m < csiAux number fuel r → m * m < number := by
  intro fuel
  induction fuel with
  | zero => intro r hr; simpa [csiAux] using hr
  | succ f ih =>
    intro r hr m hm
    unfold csiAux at hm
    split at hm
    · exact hr m hm
    · refine ih (r + 1) ?_ m hm
      intro m' hm'
      rcases Nat.lt_succ_iff_lt_or_eq.mp hm' with h | h
      · exact hr m' h
      · subst h; omega

theorem le_sq_closest_sqrt_integer (number : Nat) :
    number ≤ closest_sqrt_integer number * closest_sqrt_integer number := by
  refine le_sq_csiAux number number 0 ?_
  rcases Nat.eq_zero_or_pos number with h | h
  · simp [h]
  · simpa using Nat.le_mul_of_pos_left number h

theorem sq_lt_of_lt_closest_sqrt_integer (number m : Nat)
    (h : m < closest_sqrt_integer number) : m * m < number :=
  sq_lt_of_lt_csiAux number number 0 (by omega) m h

theorem closest_sqrt_integer_le (number : Nat) :
    closest_sqrt_integer number ≤ number := by
  by_contra h
  have hlt := sq_lt_of_lt_closest_sqrt_integer number number (by omega)
  nlinarith

/-- The fuel-based search agrees with the usual ceiling square root. -/
theorem closest_sqrt_integer_eq_sqrt (n : Nat) :
    closest_sqrt_integer n =
      (if Nat.sqrt n * Nat.sqrt n = n then Nat.sqrt n else Nat.sqrt n + 1) := by
  have h1 := le_sq_closest_sqrt_integer n
  have h2 := sq_lt_of_lt_closest_sqrt_integer n
  have hle : Nat.sqrt n ≤ closest_sqrt_integer n := by
    calc Nat.sqrt n ≤ Nat.sqrt (closest_sqrt_integer n * closest_sqrt_integer n) :=
          Nat.sqrt_le_sqrt h1
      _ = closest_sqrt_integer n := Nat.sqrt_eq _
  have hsq := Nat.sqrt_le n
  have hsq2 := Nat.lt_succ_sqrt n
  rw [Nat.succ_eq_add_one] at hsq2
  split
  · refine Nat.le_antisymm ?_ hle
    by_contra hcon
    have := h2 (Nat.sqrt n) (by omega)
    omega
  · refine Nat.le_antisymm ?_ ?_
    · by_contra hcon
      have := h2 (Nat.sqrt n + 1) (by omega)
      omega
    · rcases Nat.lt_or_ge (closest_sqrt_integer n) (Nat.sqrt n + 1) with h | h
      · have heq : closest_sqrt_integer n = Nat.sqrt n := by omega
        rw [heq] at h1
        omega
      · exact h

/-- Trial-division semantics of `is_prime` on odd inputs: accepted exactly
when no integer in the half-open interval `[3, closest_sqrt_integer n)`
divides `n`. -/
theorem is_prime_eq_true_iff (n : Nat) (hodd : n % 2 = 1) :
    is_prime n = true ↔ ∀ i, 3 ≤ i → i < closest_sqrt_integer n → ¬ (n % i = 0) := by
  unfold is_prime
  have hcond : ¬ ((n % 2 == 0) = true) := by simp [hodd]
  rw [if_neg hcond]
  simp only [List.all_eq_true, List.mem_range'_1, bne_iff_ne, ne_eq]
  constructor
  · intro h i h3 hlt
    exact h i ⟨h3, by omega⟩
  · intro h i hi
    exact h i hi.1 (by omega)

/-- Every odd genuine prime is accepted by `is_prime`. -/
theorem is_prime_of_prime (p : Nat) (hp : Nat.Prime p) (hodd : p % 2 = 1) :
    is_prime p = true := by
  rw [is_prime_eq_true_iff p hodd]
  intro i h3 hlt hmod
  have hdvd : i ∣ p := Nat.dvd_of_mod_eq_zero hmod
  have hcsi := closest_sqrt_integer_le p
  rcases Nat.Prime.eq_one_or_self_of_dvd hp i hdvd with h | h
  · omega
  · omega

theorem le_fnpFuel : ∀ (fuel c : Nat), c ≤ fnpFuel fuel c := by
  intro fuel
  induction fuel with
  | zero => intro c; exact Nat.le_refl c
  | succ f ih =>
    intro c
    unfold fnpFuel
    split
    · exact Nat.le_refl c
    · exact Nat.le_trans (by omega) (ih (c + 2))

theorem fnpFuel_accept : ∀ (fuel c : Nat),
    (∃ k, k < fuel ∧ is_prime (c + 2 * k) = true) →
    is_prime (fnpFuel fuel c) = true := by
  intro fuel
  induction fuel with
  | zero => rintro c ⟨k, hk, -⟩; omega
  | succ f ih =>
    rintro c ⟨k, hk, hacc⟩
    unfold fnpFuel
    split
    · assumption
    · refine ih (c + 2) ⟨k - 1, ?_, ?_⟩
      · rcases Nat.eq_zero_or_pos k with rfl | hkpos
        · simp at hacc; simp_all
        · omega
      · rcases Nat.eq_zero_or_pos k with rfl | hkpos
        · simp at hacc; simp_all
        · have : c + 2 + 2 * (k - 1) = c + 2 * k := by omega
          rw [this]; exact hacc

/-- `find_next_prime` never runs out of fuel on an odd input: its result is
accepted by `is_prime`, exactly as the Rust `while` loop guarantees. -/
theorem find_next_prime_isPrime (p : Nat) (hodd : p % 2 = 1) :
    is_prime (find_next_prime p) = true := by
  unfold find_next_prime
  rcases Nat.lt_or_ge p 3 with h | h
  · have : p = 1 := by omega
    subst this
    exact fnpFuel_accept 1 1 ⟨0, by omega, by decide⟩
  · obtain ⟨q, hq, hpq, hq2⟩ := Nat.bertrand p (by omega)
    have hqodd : q % 2 = 1 := by
      rcases Nat.mod_two_eq_zero_or_one q with h2 | h2
      · exfalso
        have : (2 : Nat) ∣ q := Nat.dvd_of_mod_eq_zero h2
        have := (Nat.Prime.eq_one_or_self_of_dvd hq 2 this)
        omega
      · exact h2
    refine fnpFuel_accept p p ⟨(q - p) / 2, by omega, ?_⟩
    have : p + 2 * ((q - p) / 2) = q := by omega
    rw [this]
    exact is_prime_of_prime q hq hqodd

theorem le_find_next_prime (p : Nat) : p ≤ find_next_prime p :=
  le_fnpFuel p p

end Trash

namespace Trash

/-! ### Chain-level lemmas -/

variable {K V : Type} [DecidableEq K]

theorem chainGet_eq_none {key : K} : ∀ {c : List (K × V)},
    chainGet key c = none ↔ key ∉ c.map Prod.fst := by
  intro c
  induction c with
  | nil => simp [chainGet]
  | cons e rest ih =>
    unfold chainGet
    by_cases h : e.1 = key
    · simp [h]
    · simp only [if_neg h, ih, List.map_cons, List.mem_cons]
      constructor
      · intro hn hc
        rcases hc with hc | hc
        · exact h hc.symm
        · exact hn hc
      · intro hn hc
        exact hn (Or.inr hc)

theorem chainGet_append {key : K} : ∀ (c₁ c₂ : List (K × V)),
    chainGet key (c₁ ++ c₂) = (chainGet key c₁).or (chainGet key c₂) := by
  intro c₁ c₂
  induction c₁ with
  | nil => simp [chainGet]
  | cons e rest ih =>
    by_cases h : e.1 = key
    · simp [chainGet, h]
    · simp [chainGet, h, ih]

theorem chainGet_of_mem_nodup {key : K} {v : V} : ∀ {c : List (K × V)},
    (c.map Prod.fst).Nodup → (key, v) ∈ c → chainGet key c = some v := by
  intro c
  induction c with
  | nil => simp
  | cons e rest ih =>
    intro hnd hmem
    have hnd2 := hnd
    rw [List.map_cons, List.nodup_cons] at hnd2
    rcases List.mem_cons.mp hmem with rfl | hmem
    · simp [chainGet]
    · have hne : e.1 ≠ key := by
        intro h
        exact hnd2.1 (h ▸ List.mem_map_of_mem Prod.fst hmem)
      unfold chainGet
      rw [if_neg hne]
      exact ih hnd2.2 hmem

theorem chainGet_reverse {key : K} {c : List (K × V)}
    (hnd : (c.map Prod.fst).Nodup) :
    chainGet key c.reverse = chainGet key c := by
  rcases h : chainGet key c with - | v
  · rw [chainGet_eq_none] at h ⊢
    simpa using h
  · have hmem : (key, v) ∈ c := by
      clear hnd
      induction c with
      | nil => simp [chainGet] at h
      | cons e rest ih =>
        unfold chainGet at h
        by_cases he : e.1 = key
        · rw [if_pos he] at h
          have he2 : e = (key, v) := by
            cases e
            simp_all
          rw [he2]
          exact List.mem_cons_self _ _
        · rw [if_neg he] at h
          exact List.mem_cons_of_mem _ (ih h)
    have hrev : (key, v) ∈ c.reverse := by simpa using hmem
    have hndrev : (c.reverse.map Prod.fst).Nodup := by
      rw [List.map_reverse]
      exact List.nodup_reverse.mpr hnd
    rw [chainGet_of_mem_nodup hndrev hrev]

theorem overwriteFirst_eq_none {key : K} {v : V} : ∀ {c : List (K × V)},
    overwriteFirst key v c = none ↔ chainGet key c = none := by
  intro c
  induction c with
  | nil => simp [overwriteFirst, chainGet]
  | cons e rest ih =>
    unfold overwriteFirst chainGet
    by_cases h : e.1 = key
    · simp [h]
    · simpa [h] using ih

theorem overwriteFirst_some {key : K} {v : V} : ∀ {c c' : List (K × V)},
    overwriteFirst key v c = some c' →
    ∃ pre w post, c = pre ++ (key, w) :: post ∧ c' = pre ++ (key, v) :: post ∧
      chainGet key pre = none := by
  intro c
  induction c with
  | nil => intro c' h; simp [overwriteFirst] at h
  | cons e rest ih =>
    intro c' h
    unfold overwriteFirst at h
    by_cases he : e.1 = key
    · rw [if_pos he] at h
      refine ⟨[], e.2, rest, ?_, ?_, rfl⟩
      · cases e; simp_all
      · cases e; simp_all
    · rw [if_neg he] at h
      rcases Option.map_eq_some'.mp h with ⟨c₀, hc₀, rfl⟩
      obtain ⟨pre, w, post, hc, hc', hpre⟩ := ih hc₀
      refine ⟨e :: pre, w, post, by simp [hc], by simp [hc'], ?_⟩
      unfold chainGet
      rw [if_neg he]
      exact hpre

theorem chainRemove_eq_none {key : K} : ∀ {c : List (K × V)},
    chainRemove key c = none ↔ chainGet key c = none := by
  intro c
  induction c with
  | nil => simp [chainRemove, chainGet]
  | cons e rest ih =>
    unfold chainRemove chainGet
    by_cases h : e.1 = key
    · simp [h]
    · simpa [h] using ih

theorem chainRemove_some {key : K} : ∀ {c c' : List (K × V)},
    chainRemove key c = some c' →
    ∃ pre w post, c = pre ++ (key, w) :: post ∧ c' = pre ++ post ∧
      chainGet key pre = none := by
  intro c
  induction c with
  | nil => intro c' h; simp [chainRemove] at h
  | cons e rest ih =>
    intro c' h
    unfold chainRemove at h
    by_cases he : e.1 = key
    · rw [if_pos he] at h
      refine ⟨[], e.2, rest, ?_, ?_, rfl⟩
      · cases e; simp_all
      · simp_all
    · rw [if_neg he] at h
      rcases Option.map_eq_some'.mp h with ⟨c₀, hc₀, rfl⟩
      obtain ⟨pre, w, post, hc, hc', hpre⟩ := ih hc₀
      refine ⟨e :: pre, w, post, by simp [hc], by simp [hc'], ?_⟩
      unfold chainGet
      rw [if_neg he]
      exact hpre

end Trash

namespace Trash

/-! ### Bucket-level lemmas -/

variable {K V : Type} [DecidableEq K]

theorem overwriteFirst_keys {key : K} {v : V} {c c' : List (K × V)}
    (h : overwriteFirst key v c = some c') :
    c'.map Prod.fst = c.map Prod.fst := by
  obtain ⟨pre, w, post, rfl, rfl, -⟩ := overwriteFirst_some h
  simp

theorem overwriteFirst_filter {key : K} {v : V} {c c' : List (K × V)}
    (h : overwriteFirst key v c = some c') :
    c'.filter (fun e => decide (e.1 ≠ key)) = c.filter (fun e => decide (e.1 ≠ key)) := by
  obtain ⟨pre, w, post, rfl, rfl, -⟩ := overwriteFirst_some h
  simp [List.filter_append]

theorem overwriteFirst_get_self {key : K} {v : V} {c c' : List (K × V)}
    (h : overwriteFirst key v c = some c') :
    chainGet key c' = some v := by
  obtain ⟨pre, w, post, -, rfl, hpre⟩ := overwriteFirst_some h
  rw [chainGet_append, hpre, Option.none_or]
  simp [chainGet]

theorem overwriteFirst_get_ne {key k' : K} {v : V} {c c' : List (K × V)}
    (hne : k' ≠ key) (h : overwriteFirst key v c = some c') :
    chainGet k' c' = chainGet k' c := by
  obtain ⟨pre, w, post, rfl, rfl, -⟩ := overwriteFirst_some h
  rw [chainGet_append, chainGet_append]
  have hmid : ∀ u : V, chainGet k' ((key, u) :: post) = chainGet k' post := by
    intro u
    simp [chainGet, Ne.symm hne]
  rw [hmid v, hmid w]

theorem overwriteFirst_length {key : K} {v : V} {c c' : List (K × V)}
    (h : overwriteFirst key v c = some c') : c'.length = c.length := by
  have := overwriteFirst_keys h
  have h1 : (c'.map Prod.fst).length = (c.map Prod.fst).length := by rw [this]
  simpa using h1

theorem chainRemove_filter {key : K} {c c' : List (K × V)}
    (h : chainRemove key c = some c') :
    c'.filter (fun e => decide (e.1 ≠ key)) = c.filter (fun e => decide (e.1 ≠ key)) := by
  obtain ⟨pre, w, post, rfl, rfl, -⟩ := chainRemove_some h
  simp [List.filter_append]

theorem chainRemove_get_ne {key k' : K} {c c' : List (K × V)}
    (hne : k' ≠ key) (h : chainRemove key c = some c') :
    chainGet k' c' = chainGet k' c := by
  obtain ⟨pre, w, post, rfl, rfl, -⟩ := chainRemove_some h
  rw [chainGet_append, chainGet_append]
  have hmid : chainGet k' ((key, w) :: post) = chainGet k' post := by
    simp [chainGet, Ne.symm hne]
  rw [hmid]

theorem chainRemove_length {key : K} {c c' : List (K × V)}
    (h : chainRemove key c = some c') : c.length = c'.length + 1 := by
  obtain ⟨pre, w, post, rfl, rfl, -⟩ := chainRemove_some h
  simp
  omega

theorem chainRemove_keys_sublist {key : K} {c c' : List (K × V)}
    (h : chainRemove key c = some c') :
    (c'.map Prod.fst).Sublist (c.map Prod.fst) := by
  obtain ⟨pre, w, post, rfl, rfl, -⟩ := chainRemove_some h
  simp only [List.map_append, List.map_cons]
  exact List.Sublist.append_left (List.sublist_cons_self _ _) _

theorem chainRemove_nodup {key : K} {c c' : List (K × V)}
    (hnd : (c.map Prod.fst).Nodup) (h : chainRemove key c = some c') :
    (c'.map Prod.fst).Nodup :=
  (chainRemove_keys_sublist h).nodup hnd

theorem chainRemove_get_self {key : K} {c c' : List (K × V)}
    (hnd : (c.map Prod.fst).Nodup) (h : chainRemove key c = some c') :
    chainGet key c' = none := by
  obtain ⟨pre, w, post, rfl, rfl, -⟩ := chainRemove_some h
  rw [chainGet_eq_none]
  intro hmem
  rw [List.map_append, List.map_cons] at hnd
  obtain ⟨h1, h2, hdisj⟩ := List.nodup_append.mp hnd
  rw [List.map_append, List.mem_append] at hmem
  rcases hmem with hmem | hmem
  · exact hdisj hmem (List.mem_cons_self _ _)
  · exact (List.nodup_cons.mp h2).1 hmem

theorem Bucket.get_eq_chainGet (b : Bucket K V) (key : K) :
    b.get key = chainGet key b.chain := by
  unfold Bucket.get
  split
  · rcases b with ⟨c⟩
    cases c
    · simp [chainGet]
    · simp_all
  · rfl

theorem Bucket.insert_chain_of_absent {b : Bucket K V} {key : K} {v : V}
    (h : chainGet key b.chain = none) :
    (b.insert key v).chain = (key, v) :: b.chain := by
  unfold Bucket.insert
  split
  · rcases b with ⟨c⟩
    simp_all [List.isEmpty_iff]
  · rw [overwriteFirst_eq_none.mpr h]

theorem Bucket.insert_chain_of_present {b : Bucket K V} {key : K} {v : V} {c' : List (K × V)}
    (h : overwriteFirst key v b.chain = some c') :
    (b.insert key v).chain = c' := by
  unfold Bucket.insert
  split
  · exfalso
    rcases b with ⟨c⟩
    simp_all [List.isEmpty_iff, overwriteFirst]
  · rw [h]

theorem Bucket.get_insert_self (b : Bucket K V) (key : K) (v : V) :
    (b.insert key v).get key = some v := by
  rw [Bucket.get_eq_chainGet]
  rcases h : overwriteFirst key v b.chain with - | c'
  · rw [Bucket.insert_chain_of_absent (overwriteFirst_eq_none.mp h)]
    simp [chainGet]
  · rw [Bucket.insert_chain_of_present h]
    exact overwriteFirst_get_self h

theorem Bucket.get_insert_ne (b : Bucket K V) {key k' : K} (v : V) (hne : k' ≠ key) :
    (b.insert key v).get k' = b.get k' := by
  rw [Bucket.get_eq_chainGet, Bucket.get_eq_chainGet]
  rcases h : overwriteFirst key v b.chain with - | c'
  · rw [Bucket.insert_chain_of_absent (overwriteFirst_eq_none.mp h)]
    simp [chainGet, Ne.symm hne]
  · rw [Bucket.insert_chain_of_present h]
    exact overwriteFirst_get_ne hne h

theorem Bucket.insert_length_le (b : Bucket K V) (key : K) (v : V) :
    (b.insert key v).chain.length ≤ b.chain.length + 1 := by
  rcases h : overwriteFirst key v b.chain with - | c'
  · rw [Bucket.insert_chain_of_absent (overwriteFirst_eq_none.mp h)]
    simp
  · rw [Bucket.insert_chain_of_present h, overwriteFirst_length h]
    omega

theorem Bucket.insert_length_of_absent {b : Bucket K V} {key : K} {v : V}
    (h : chainGet key b.chain = none) :
    (b.insert key v).chain.length = b.chain.length + 1 := by
  rw [Bucket.insert_chain_of_absent h]
  simp

theorem Bucket.insert_nodup {b : Bucket K V} {key : K} {v : V}
    (hnd : (b.chain.map Prod.fst).Nodup) :
    ((b.insert key v).chain.map Prod.fst).Nodup := by
  rcases h : overwriteFirst key v b.chain with - | c'
  · rw [Bucket.insert_chain_of_absent (overwriteFirst_eq_none.mp h)]
    rw [List.map_cons, List.nodup_cons]
    exact ⟨by simpa using chainGet_eq_none.mp (overwriteFirst_eq_none.mp h), hnd⟩
  · rw [Bucket.insert_chain_of_present h]
    rw [overwriteFirst_keys h]
    exact hnd

theorem Bucket.insert_mem {b : Bucket K V} {key : K} {v : V} {e : K × V}
    (h : e ∈ (b.insert key v).chain) : e ∈ b.chain ∨ e = (key, v) := by
  rcases hw : overwriteFirst key v b.chain with - | c'
  · rw [Bucket.insert_chain_of_absent (overwriteFirst_eq_none.mp hw)] at h
    rcases List.mem_cons.mp h with h | h
    · exact Or.inr h
    · exact Or.inl h
  · rw [Bucket.insert_chain_of_present hw] at h
    obtain ⟨pre, w, post, hc, hc2, -⟩ := overwriteFirst_some hw
    rw [hc2] at h
    rw [hc]
    rcases List.mem_append.mp h with h | h
    · exact Or.inl (List.mem_append_left _ h)
    · rcases List.mem_cons.mp h with h | h
      · exact Or.inr h
      · exact Or.inl (List.mem_append_right _ (List.mem_cons_of_mem _ h))

end Trash

namespace Trash

/-! ### Bucket-array level: indexing, well-formedness -/

variable {K V : Type} [DecidableEq K]

theorem getD_set_self {α : Type} : ∀ (l : List α) (i : Nat) (a d : α), i < l.length →
    (l.set i a).getD i d = a := by
  intro l
  induction l with
  | nil => intro i a d h; simp at h
  | cons x xs ih =>
    intro i a d h
    cases i with
    | zero => simp
    | succ j =>
      simp only [List.set_cons_succ, List.getD_cons_succ]
      exact ih j a d (by simpa using h)

theorem getD_set_ne {α : Type} : ∀ (l : List α) (i j : Nat) (a d : α), i ≠ j →
    (l.set i a).getD j d = l.getD j d := by
  intro l
  induction l with
  | nil => intro i j a d h; simp
  | cons x xs ih =>
    intro i j a d h
    cases i with
    | zero =>
      cases j with
      | zero => exact absurd rfl h
      | succ j' => simp
    | succ i' =>
      cases j with
      | zero => simp
      | succ j' =>
        simp only [List.set_cons_succ, List.getD_cons_succ]
        exact ih i' j' a d (by omega)

theorem getD_replicate {α : Type} : ∀ (n i : Nat) (a : α),
    (List.replicate n a).getD i a = a := by
  intro n
  induction n with
  | zero => intro i a; simp
  | succ m ih =>
    intro i a
    cases i with
    | zero => simp [List.replicate_succ]
    | succ j => simpa [List.replicate_succ] using ih j a

variable (hashFn : K → Nat)

/-- The bucket selected by index `i` (with the empty bucket as the
out-of-range default; all reachable accesses are in range). -/
def bucketAt (bs : List (Bucket K V)) (i : Nat) : Bucket K V :=
  bs.getD i ⟨[]⟩

/-- Lookup in a bare bucket array, as `TrashMap::get` performs it. -/
def bGet (bs : List (Bucket K V)) (key : K) : Option V :=
  (bucketAt bs (TrashMap.hash hashFn bs.length key)).get key

theorem TrashMap.get_eq_bGet (s : TrashMap K V) (key : K) :
    s.get hashFn key = bGet hashFn s.buckets key := rfl

/-- Structural invariant of a bucket array: nonempty, every entry lives in
the bucket its hash selects, and no chain repeats a key. -/
def BucketsWF (bs : List (Bucket K V)) : Prop :=
  0 < bs.length ∧
  (∀ i, i < bs.length → ∀ e ∈ (bucketAt bs i).chain,
    TrashMap.hash hashFn bs.length e.1 = i) ∧
  (∀ i, i < bs.length → ((bucketAt bs i).chain.map Prod.fst).Nodup)

instance (bs : List (Bucket K V)) : Decidable (BucketsWF hashFn bs) := by
  unfold BucketsWF
  infer_instance

theorem hash_lt (len : Nat) (key : K) (h : 0 < len) :
    TrashMap.hash hashFn len key < len :=
  Nat.mod_lt _ h

theorem length_insert_into_buckets (bs : List (Bucket K V)) (key : K) (value : V) :
    (insert_into_buckets hashFn bs key value).length = bs.length := by
  simp [insert_into_buckets]

theorem bucketAt_insert_into_buckets_self (bs : List (Bucket K V)) (key : K) (value : V)
    (h0 : 0 < bs.length) :
    bucketAt (insert_into_buckets hashFn bs key value)
        (TrashMap.hash hashFn bs.length key) =
      (bucketAt bs (TrashMap.hash hashFn bs.length key)).insert key value := by
  unfold insert_into_buckets bucketAt
  exact getD_set_self _ _ _ _ (hash_lt hashFn _ key h0)

theorem bucketAt_insert_into_buckets_ne (bs : List (Bucket K V)) (key : K) (value : V)
    {j : Nat} (hj : j ≠ TrashMap.hash hashFn bs.length key) :
    bucketAt (insert_into_buckets hashFn bs key value) j = bucketAt bs j := by
  unfold insert_into_buckets bucketAt
  exact getD_set_ne _ _ _ _ _ (Ne.symm hj)

/-- Effect of one `insert_into_buckets` on array lookup: the inserted key
now maps to the inserted value, every other key is untouched. -/
theorem bGet_insert_into_buckets (bs : List (Bucket K V)) (key k' : K) (value : V)
    (h0 : 0 < bs.length) :
    bGet hashFn (insert_into_buckets hashFn bs key value) k' =
      if k' = key then some value else bGet hashFn bs k' := by
  unfold bGet
  rw [length_insert_into_buckets]
  by_cases hk : k' = key
  · subst hk
    rw [bucketAt_insert_into_buckets_self hashFn bs k' value h0]
    rw [if_pos rfl]
    exact Bucket.get_insert_self _ _ _
  · rw [if_neg hk]
    by_cases hj : TrashMap.hash hashFn bs.length k' = TrashMap.hash hashFn bs.length key
    · rw [hj, bucketAt_insert_into_buckets_self hashFn bs key value h0]
      rw [← hj]
      exact Bucket.get_insert_ne _ _ hk
    · rw [bucketAt_insert_into_buckets_ne hashFn bs key value hj]

theorem BucketsWF_insert_into_buckets {bs : List (Bucket K V)} (key : K) (value : V)
    (hwf : BucketsWF hashFn bs) :
    BucketsWF hashFn (insert_into_buckets hashFn bs key value) := by
  obtain ⟨h0, hplace, hnd⟩ := hwf
  refine ⟨by rwa [length_insert_into_buckets], ?_, ?_⟩
  · intro i hi e he
    rw [length_insert_into_buckets] at hi ⊢
    by_cases hj : i = TrashMap.hash hashFn bs.length key
    · subst hj
      rw [bucketAt_insert_into_buckets_self hashFn bs key value h0] at he
      rcases Bucket.insert_mem he with he | he
      · exact hplace _ (hash_lt hashFn _ key h0) e he
      · rw [he]
    · rw [bucketAt_insert_into_buckets_ne hashFn bs key value hj] at he
      exact hplace i hi e he
  · intro i hi
    rw [length_insert_into_buckets] at hi
    by_cases hj : i = TrashMap.hash hashFn bs.length key
    · subst hj
      rw [bucketAt_insert_into_buckets_self hashFn bs key value h0]
      exact Bucket.insert_nodup (hnd _ (hash_lt hashFn _ key h0))
    · rw [bucketAt_insert_into_buckets_ne hashFn bs key value hj]
      exact hnd i hi

theorem length_make_buckets (count : Nat) :
    (make_buckets count : List (Bucket K V)).length = count := by
  simp [make_buckets]

theorem bucketAt_make_buckets (count i : Nat) :
    bucketAt (make_buckets count : List (Bucket K V)) i = ⟨[]⟩ :=
  getD_replicate count i _

theorem BucketsWF_make_buckets (count : Nat) (h0 : 0 < count) :
    BucketsWF hashFn (make_buckets count : List (Bucket K V)) := by
  refine ⟨by simpa [length_make_buckets] using h0, ?_, ?_⟩
  · intro i hi e he
    rw [bucketAt_make_buckets] at he
    simp at he
  · intro i hi
    rw [bucketAt_make_buckets]
    simp

theorem bGet_make_buckets (count : Nat) (key : K) :
    bGet hashFn (make_buckets count : List (Bucket K V)) key = none := by
  unfold bGet
  rw [bucketAt_make_buckets, Bucket.get_eq_chainGet]
  rfl

end Trash

namespace Trash

/-! ### Re-insertion fold, chain sums, global key uniqueness -/

variable {K V : Type} [DecidableEq K] (hashFn : K → Nat)

/-- The re-insertion fold used by `TrashMap::grow`. -/
def insertAll (ps : List (K × V)) (bs : List (Bucket K V)) : List (Bucket K V) :=
  ps.foldl (fun bs e => insert_into_buckets hashFn bs e.1 e.2) bs

theorem grow_eq_insertAll (s : TrashMap K V) :
    s.grow hashFn =
      ⟨insertAll hashFn ((s.buckets.map Bucket.chain).flatten)
        (make_buckets (find_next_prime (s.buckets.length * 2 + 1))),
       s.elements⟩ := rfl

theorem length_insertAll : ∀ (ps : List (K × V)) (bs : List (Bucket K V)),
    (insertAll hashFn ps bs).length = bs.length := by
  intro ps
  induction ps with
  | nil => intro bs; rfl
  | cons p rest ih =>
    intro bs
    show (insertAll hashFn rest (insert_into_buckets hashFn bs p.1 p.2)).length = _
    rw [ih, length_insert_into_buckets]

theorem bGet_insertAll : ∀ (ps : List (K × V)) (bs : List (Bucket K V)) (key : K),
    0 < bs.length →
    bGet hashFn (insertAll hashFn ps bs) key =
      (chainGet key ps.reverse).or (bGet hashFn bs key) := by
  intro ps
  induction ps with
  | nil => intro bs key h0; simp [insertAll, chainGet]
  | cons p rest ih =>
    intro bs key h0
    have h0' : 0 < (insert_into_buckets hashFn bs p.1 p.2).length := by
      rwa [length_insert_into_buckets]
    have step : bGet hashFn (insertAll hashFn (p :: rest) bs) key =
        (chainGet key rest.reverse).or (bGet hashFn (insert_into_buckets hashFn bs p.1 p.2) key) :=
      ih (insert_into_buckets hashFn bs p.1 p.2) key h0'
    rw [step, bGet_insert_into_buckets hashFn bs p.1 key p.2 h0]
    have hrev : (p :: rest).reverse = rest.reverse ++ [p] := by simp
    rw [hrev, chainGet_append, Option.or_assoc]
    congr 1
    by_cases hk : key = p.1
    · subst hk
      simp [chainGet]
    · simp [chainGet, hk, Ne.symm hk]

theorem BucketsWF_insertAll : ∀ (ps : List (K × V)) (bs : List (Bucket K V)),
    BucketsWF hashFn bs → BucketsWF hashFn (insertAll hashFn ps bs) := by
  intro ps
  induction ps with
  | nil => intro bs h; exact h
  | cons p rest ih =>
    intro bs h
    exact ih _ (BucketsWF_insert_into_buckets hashFn p.1 p.2 h)

/-- Sum of all chain lengths over a bare bucket array. -/
def sumChainsB (bs : List (Bucket K V)) : Nat :=
  (bs.map fun b => b.chain.length).sum

theorem sumChains_eq_sumChainsB (s : TrashMap K V) :
    sumChains s = sumChainsB s.buckets := rfl

theorem sumChainsB_set : ∀ (bs : List (Bucket K V)) (i : Nat) (b : Bucket K V),
    i < bs.length →
    sumChainsB (bs.set i b) + (bucketAt bs i).chain.length =
      sumChainsB bs + b.chain.length := by
  intro bs
  induction bs with
  | nil => intro i b h; simp at h
  | cons x xs ih =>
    intro i b h
    cases i with
    | zero =>
      simp only [List.set_cons_zero, sumChainsB, List.map_cons, List.sum_cons, bucketAt,
        List.getD_cons_zero]
      omega
    | succ j =>
      have hj : j < xs.length := by simpa using h
      have := ih j b hj
      simp only [List.set_cons_succ, sumChainsB, List.map_cons, List.sum_cons, bucketAt,
        List.getD_cons_succ] at this ⊢
      omega

theorem sumChainsB_insert_into_buckets_le (bs : List (Bucket K V)) (key : K) (value : V) :
    sumChainsB (insert_into_buckets hashFn bs key value) ≤ sumChainsB bs + 1 := by
  rcases Nat.eq_zero_or_pos bs.length with h0 | h0
  · have : bs = [] := List.length_eq_zero.mp h0
    subst this
    simp [insert_into_buckets, sumChainsB]
  · have hset := sumChainsB_set bs (TrashMap.hash hashFn bs.length key)
      ((bucketAt bs (TrashMap.hash hashFn bs.length key)).insert key value)
      (hash_lt hashFn _ key h0)
    have hlen := Bucket.insert_length_le
      (bucketAt bs (TrashMap.hash hashFn bs.length key)) key value
    have hgoal : insert_into_buckets hashFn bs key value =
        bs.set (TrashMap.hash hashFn bs.length key)
          ((bucketAt bs (TrashMap.hash hashFn bs.length key)).insert key value) := rfl
    rw [hgoal]
    omega

theorem sumChainsB_insert_into_buckets_absent (bs : List (Bucket K V)) (key : K) (value : V)
    (h0 : 0 < bs.length) (habs : bGet hashFn bs key = none) :
    sumChainsB (insert_into_buckets hashFn bs key value) = sumChainsB bs + 1 := by
  have hset := sumChainsB_set bs (TrashMap.hash hashFn bs.length key)
    ((bucketAt bs (TrashMap.hash hashFn bs.length key)).insert key value)
    (hash_lt hashFn _ key h0)
  have hchain : chainGet key (bucketAt bs (TrashMap.hash hashFn bs.length key)).chain = none := by
    rw [← Bucket.get_eq_chainGet]
    exact habs
  have hlen := Bucket.insert_length_of_absent (v := value) hchain
  have hgoal : insert_into_buckets hashFn bs key value =
      bs.set (TrashMap.hash hashFn bs.length key)
        ((bucketAt bs (TrashMap.hash hashFn bs.length key)).insert key value) := rfl
  rw [hgoal]
  omega

theorem sumChainsB_make_buckets (count : Nat) :
    sumChainsB (make_buckets count : List (Bucket K V)) = 0 := by
  induction count with
  | zero => rfl
  | succ m ih => simpa [make_buckets, sumChainsB, List.replicate_succ] using ih

theorem sumChainsB_insertAll : ∀ (ps : List (K × V)) (bs : List (Bucket K V)),
    0 < bs.length → (ps.map Prod.fst).Nodup →
    (∀ e ∈ ps, bGet hashFn bs e.1 = none) →
    sumChainsB (insertAll hashFn ps bs) = sumChainsB bs + ps.length := by
  intro ps
  induction ps with
  | nil => intro bs h0 hnd habs; rfl
  | cons p rest ih =>
    intro bs h0 hnd habs
    rw [List.map_cons, List.nodup_cons] at hnd
    have h0' : 0 < (insert_into_buckets hashFn bs p.1 p.2).length := by
      rwa [length_insert_into_buckets]
    have hnd' := hnd.2
    have habs' : ∀ e ∈ rest, bGet hashFn (insert_into_buckets hashFn bs p.1 p.2) e.1 = none := by
      intro e he
      rw [bGet_insert_into_buckets hashFn bs p.1 e.1 p.2 h0]
      have hne : e.1 ≠ p.1 := by
        intro hcontra
        exact hnd.1 (hcontra ▸ List.mem_map_of_mem Prod.fst he)
      rw [if_neg hne]
      exact habs e (List.mem_cons_of_mem _ he)
    have step : sumChainsB (insertAll hashFn (p :: rest) bs) =
        sumChainsB (insert_into_buckets hashFn bs p.1 p.2) + rest.length :=
      ih _ h0' hnd' habs'
    rw [step, sumChainsB_insert_into_buckets_absent hashFn bs p.1 p.2 h0
      (habs p (List.mem_cons_self _ _))]
    simp
    omega

end Trash

namespace Trash

/-! ### Global key uniqueness and `grow` preservation -/

variable {K V : Type} [DecidableEq K] (hashFn : K → Nat)

theorem chainGet_some_mem {key : K} {v : V} : ∀ {c : List (K × V)},
    chainGet key c = some v → (key, v) ∈ c := by
  intro c
  induction c with
  | nil => intro h; simp [chainGet] at h
  | cons e rest ih =>
    intro h
    unfold chainGet at h
    by_cases he : e.1 = key
    · rw [if_pos he] at h
      have he2 : e = (key, v) := by
        cases e
        simp_all
      rw [he2]
      exact List.mem_cons_self _ _
    · rw [if_neg he] at h
      exact List.mem_cons_of_mem _ (ih h)

theorem bucketAt_eq_getElem {bs : List (Bucket K V)} {i : Nat} (h : i < bs.length) :
    bucketAt bs i = bs[i] := by
  unfold bucketAt
  rw [List.getD_eq_getElem?_getD, List.getElem?_eq_getElem h]
  rfl

/-- Under well-formedness, any stored entry sits in the bucket its hash
selects. -/
theorem mem_flatten_placement {bs : List (Bucket K V)} (hwf : BucketsWF hashFn bs)
    {e : K × V} (he : e ∈ (bs.map Bucket.chain).flatten) :
    e ∈ (bucketAt bs (TrashMap.hash hashFn bs.length e.1)).chain := by
  obtain ⟨l, hl, hel⟩ := List.mem_flatten.mp he
  obtain ⟨b, hb, rfl⟩ := List.mem_map.mp hl
  obtain ⟨j, hj, rfl⟩ := List.mem_iff_getElem.mp hb
  have hbat : bucketAt bs j = bs[j] := bucketAt_eq_getElem hj
  have := hwf.2.1 j hj e (by rwa [hbat])
  rw [this, hbat]
  exact hel

/-- Under well-formedness, the concatenation of all chains repeats no key. -/
theorem flatten_keys_nodup {bs : List (Bucket K V)} (hwf : BucketsWF hashFn bs) :
    (((bs.map Bucket.chain).flatten).map Prod.fst).Nodup := by
  rw [List.map_flatten]
  rw [List.nodup_flatten]
  constructor
  · intro l hl
    obtain ⟨l₂, hl₂, rfl⟩ := List.mem_map.mp hl
    obtain ⟨b, hb, rfl⟩ := List.mem_map.mp hl₂
    obtain ⟨j, hj, rfl⟩ := List.mem_iff_getElem.mp hb
    have hbat : bucketAt bs j = bs[j] := bucketAt_eq_getElem hj
    rw [← hbat]
    exact hwf.2.2 j hj
  · rw [List.map_map, List.pairwise_iff_getElem]
    intro i j hi hj hij
    rw [List.getElem_map, List.getElem_map]
    intro a hai haj
    rw [List.length_map] at hi hj
    simp only [Function.comp_apply] at hai haj
    obtain ⟨e, hei, rfl⟩ := List.mem_map.mp hai
    obtain ⟨e2, hej, hee⟩ := List.mem_map.mp haj
    have hpi := hwf.2.1 i hi e (by rw [bucketAt_eq_getElem hi]; exact hei)
    have hpj := hwf.2.1 j hj e2 (by rw [bucketAt_eq_getElem hj]; exact hej)
    rw [hee] at hpj
    omega

/-- Under well-formedness, first-match lookup over the whole concatenation
agrees with lookup in the hashed bucket. -/
theorem chainGet_flatten_eq {bs : List (Bucket K V)} (hwf : BucketsWF hashFn bs) (key : K) :
    chainGet key ((bs.map Bucket.chain).flatten) = bGet hashFn bs key := by
  rcases hg : bGet hashFn bs key with - | v
  · rw [chainGet_eq_none]
    intro hmem
    obtain ⟨e, he, hek⟩ := List.mem_map.mp hmem
    have hplace := mem_flatten_placement hashFn hwf he
    rw [hek] at hplace
    unfold bGet at hg
    rw [Bucket.get_eq_chainGet, chainGet_eq_none] at hg
    have he2 : e = (key, e.2) := by
      cases e
      simp_all
    exact hg (by
      rw [he2] at hplace
      simpa using List.mem_map_of_mem Prod.fst hplace)
  · unfold bGet at hg
    rw [Bucket.get_eq_chainGet] at hg
    have hmem := chainGet_some_mem hg
    have h0 := hwf.1
    have hbmem : (bucketAt bs (TrashMap.hash hashFn bs.length key)).chain ∈
        bs.map Bucket.chain := by
      rw [bucketAt_eq_getElem (hash_lt hashFn _ key h0)]
      exact List.mem_map_of_mem Bucket.chain (List.getElem_mem _)
    have hflat : (key, v) ∈ (bs.map Bucket.chain).flatten :=
      List.mem_flatten.mpr ⟨_, hbmem, hmem⟩
    exact chainGet_of_mem_nodup (flatten_keys_nodup hashFn hwf) hflat

theorem grow_buckets_length (s : TrashMap K V) :
    (s.grow hashFn).buckets.length = find_next_prime (s.buckets.length * 2 + 1) := by
  rw [grow_eq_insertAll]
  show (insertAll hashFn _ _).length = _
  rw [length_insertAll, length_make_buckets]

theorem grow_buckets_pos (s : TrashMap K V) : 0 < (s.grow hashFn).buckets.length := by
  rw [grow_buckets_length]
  have := le_find_next_prime (s.buckets.length * 2 + 1)
  omega

theorem grow_elements (s : TrashMap K V) : (s.grow hashFn).elements = s.elements := rfl

/-- `grow` preserves every lookup. -/
theorem grow_get {s : TrashMap K V} (hwf : BucketsWF hashFn s.buckets) (key : K) :
    (s.grow hashFn).get hashFn key = s.get hashFn key := by
  rw [TrashMap.get_eq_bGet, TrashMap.get_eq_bGet, grow_eq_insertAll]
  show bGet hashFn (insertAll hashFn _ _) key = _
  have hm : 0 < (make_buckets (find_next_prime (s.buckets.length * 2 + 1)) :
      List (Bucket K V)).length := by
    rw [length_make_buckets]
    have := le_find_next_prime (s.buckets.length * 2 + 1)
    omega
  rw [bGet_insertAll hashFn _ _ key hm, bGet_make_buckets, Option.or_none]
  rw [chainGet_reverse (flatten_keys_nodup hashFn hwf)]
  exact chainGet_flatten_eq hashFn hwf key

theorem grow_BucketsWF {s : TrashMap K V} (hwf : BucketsWF hashFn s.buckets) :
    BucketsWF hashFn (s.grow hashFn).buckets := by
  rw [grow_eq_insertAll]
  show BucketsWF hashFn (insertAll hashFn _ _)
  refine BucketsWF_insertAll hashFn _ _ (BucketsWF_make_buckets hashFn _ ?_)
  have := le_find_next_prime (s.buckets.length * 2 + 1)
  omega

theorem grow_sumChains {s : TrashMap K V} (hwf : BucketsWF hashFn s.buckets) :
    sumChains (s.grow hashFn) = sumChains s := by
  rw [sumChains_eq_sumChainsB, sumChains_eq_sumChainsB, grow_eq_insertAll]
  show sumChainsB (insertAll hashFn _ _) = _
  have hm : 0 < (make_buckets (find_next_prime (s.buckets.length * 2 + 1)) :
      List (Bucket K V)).length := by
    rw [length_make_buckets]
    have := le_find_next_prime (s.buckets.length * 2 + 1)
    omega
  rw [sumChainsB_insertAll hashFn _ _ hm (flatten_keys_nodup hashFn hwf)
    (fun e _ => bGet_make_buckets hashFn _ e.1)]
  rw [sumChainsB_make_buckets]
  simp only [Nat.zero_add]
  rw [List.length_flatten, List.map_map]
  rfl

end Trash

namespace Trash

/-! ### Map-level invariant, insert and remove characterizations -/

variable {K V : Type} [DecidableEq K] (hashFn : K → Nat)

/-- Integrity invariant of a map state: well-formed buckets, with the
element counter at least the number of stored pairs (the counter can
exceed it because `insert` also counts overwrites). -/
def Inv (s : TrashMap K V) : Prop :=
  BucketsWF hashFn s.buckets ∧ sumChains s ≤ s.elements

instance (s : TrashMap K V) : Decidable (Inv hashFn s) := by
  unfold Inv
  infer_instance

theorem insert_unfold (s : TrashMap K V) (key : K) (value : V) :
    s.insert hashFn key value =
      if 4 * (s.elements + 1) > 3 * (insert_into_buckets hashFn s.buckets key value).length
      then TrashMap.grow hashFn ⟨insert_into_buckets hashFn s.buckets key value, s.elements + 1⟩
      else ⟨insert_into_buckets hashFn s.buckets key value, s.elements + 1⟩ := rfl

theorem insert_elements (s : TrashMap K V) (key : K) (value : V) :
    (s.insert hashFn key value).elements = s.elements + 1 := by
  rw [insert_unfold]
  split
  · exact grow_elements hashFn _
  · rfl

theorem get_insert {s : TrashMap K V} (hInv : Inv hashFn s) (key k' : K) (value : V) :
    (s.insert hashFn key value).get hashFn k' =
      if k' = key then some value else s.get hashFn k' := by
  have h0 : 0 < s.buckets.length := hInv.1.1
  have hwf1 : BucketsWF hashFn
      (⟨insert_into_buckets hashFn s.buckets key value, s.elements + 1⟩ : TrashMap K V).buckets :=
    BucketsWF_insert_into_buckets hashFn key value hInv.1
  have hget1 : (⟨insert_into_buckets hashFn s.buckets key value, s.elements + 1⟩ :
      TrashMap K V).get hashFn k' = if k' = key then some value else s.get hashFn k' := by
    rw [TrashMap.get_eq_bGet]
    exact bGet_insert_into_buckets hashFn s.buckets key k' value h0
  rw [insert_unfold]
  split
  · rw [grow_get hashFn hwf1 k']
    exact hget1
  · exact hget1

theorem Inv_insert {s : TrashMap K V} (hInv : Inv hashFn s) (key : K) (value : V) :
    Inv hashFn (s.insert hashFn key value) := by
  have hwf1 : BucketsWF hashFn
      (⟨insert_into_buckets hashFn s.buckets key value, s.elements + 1⟩ : TrashMap K V).buckets :=
    BucketsWF_insert_into_buckets hashFn key value hInv.1
  have hsum1 : sumChains
      (⟨insert_into_buckets hashFn s.buckets key value, s.elements + 1⟩ : TrashMap K V) ≤
      s.elements + 1 := by
    rw [sumChains_eq_sumChainsB]
    have h1 := sumChainsB_insert_into_buckets_le hashFn s.buckets key value
    have h2 : sumChainsB s.buckets ≤ s.elements := hInv.2
    show sumChainsB (insert_into_buckets hashFn s.buckets key value) ≤ s.elements + 1
    omega
  rw [insert_unfold]
  split
  · exact ⟨grow_BucketsWF hashFn hwf1,
      by rw [grow_sumChains hashFn hwf1, grow_elements]; exact hsum1⟩
  · exact ⟨hwf1, hsum1⟩

theorem Bucket.remove_eq_match (b : Bucket K V) (key : K) :
    b.remove key = (match chainRemove key b.chain with
      | some c => (true, (⟨c⟩ : Bucket K V))
      | none => (false, b)) := by
  rcases b with ⟨c⟩
  cases c with
  | nil => rfl
  | cons e rest => rfl

theorem remove_unfold (s : TrashMap K V) (key : K) :
    s.remove hashFn key = (match chainRemove key
        (bucketAt s.buckets (TrashMap.hash hashFn s.buckets.length key)).chain with
      | some c => (true,
          ⟨s.buckets.set (TrashMap.hash hashFn s.buckets.length key) ⟨c⟩, s.elements - 1⟩)
      | none => (false, s)) := by
  have hrfl : s.remove hashFn key =
      (match (bucketAt s.buckets (TrashMap.hash hashFn s.buckets.length key)).remove key with
       | (true, b) => (true,
           ⟨s.buckets.set (TrashMap.hash hashFn s.buckets.length key) b, s.elements - 1⟩)
       | (false, _) => (false, s)) := rfl
  rw [hrfl, Bucket.remove_eq_match]
  rcases hcr : chainRemove key
      (bucketAt s.buckets (TrashMap.hash hashFn s.buckets.length key)).chain with - | c
  · rfl
  · rfl

theorem remove_fst_iff (s : TrashMap K V) (key : K) :
    (s.remove hashFn key).1 = true ↔ s.get hashFn key ≠ none := by
  rw [remove_unfold, TrashMap.get_eq_bGet]
  unfold bGet
  rw [Bucket.get_eq_chainGet]
  rcases hcr : chainRemove key
      (bucketAt s.buckets (TrashMap.hash hashFn s.buckets.length key)).chain with - | c
  · rw [chainRemove_eq_none] at hcr
    simp [hcr]
  · have : chainGet key (bucketAt s.buckets
        (TrashMap.hash hashFn s.buckets.length key)).chain ≠ none := by
      intro hnone
      rw [← chainRemove_eq_none] at hnone
      rw [hnone] at hcr
      cases hcr
    simp [this]

theorem chainRemove_mem {key : K} {c c' : List (K × V)} {e : K × V}
    (h : chainRemove key c = some c') (he : e ∈ c') : e ∈ c := by
  obtain ⟨pre, w, post, rfl, rfl, -⟩ := chainRemove_some h
  rcases List.mem_append.mp he with he | he
  · exact List.mem_append_left _ he
  · exact List.mem_append_right _ (List.mem_cons_of_mem _ he)

theorem Inv_remove {s : TrashMap K V} (hInv : Inv hashFn s) (key : K) :
    Inv hashFn (s.remove hashFn key).2 := by
  rw [remove_unfold]
  rcases hcr : chainRemove key
      (bucketAt s.buckets (TrashMap.hash hashFn s.buckets.length key)).chain with - | c
  · exact hInv
  · obtain ⟨h0, hplace, hnd⟩ := hInv.1
    have hi0 : TrashMap.hash hashFn s.buckets.length key < s.buckets.length :=
      hash_lt hashFn _ key h0
    have hlen : (s.buckets.set (TrashMap.hash hashFn s.buckets.length key)
        (⟨c⟩ : Bucket K V)).length = s.buckets.length := List.length_set _ _ _
    refine ⟨⟨by rwa [hlen], ?_, ?_⟩, ?_⟩
    · intro i hi e he
      rw [hlen] at hi ⊢
      by_cases hj : i = TrashMap.hash hashFn s.buckets.length key
      · subst hj
        have : bucketAt (s.buckets.set (TrashMap.hash hashFn s.buckets.length key)
            (⟨c⟩ : Bucket K V)) (TrashMap.hash hashFn s.buckets.length key) =
            (⟨c⟩ : Bucket K V) := getD_set_self _ _ _ _ hi0
        rw [this] at he
        exact hplace _ hi0 e (chainRemove_mem hcr he)
      · have : bucketAt (s.buckets.set (TrashMap.hash hashFn s.buckets.length key)
            (⟨c⟩ : Bucket K V)) i = bucketAt s.buckets i := by
          unfold bucketAt
          exact getD_set_ne _ _ _ _ _ (fun h => hj h.symm)
        rw [this] at he
        exact hplace i hi e he
    · intro i hi
      rw [hlen] at hi
      by_cases hj : i = TrashMap.hash hashFn s.buckets.length key
      · subst hj
        have : bucketAt (s.buckets.set (TrashMap.hash hashFn s.buckets.length key)
            (⟨c⟩ : Bucket K V)) (TrashMap.hash hashFn s.buckets.length key) =
            (⟨c⟩ : Bucket K V) := getD_set_self _ _ _ _ hi0
        rw [this]
        exact chainRemove_nodup (hnd _ hi0) hcr
      · have : bucketAt (s.buckets.set (TrashMap.hash hashFn s.buckets.length key)
            (⟨c⟩ : Bucket K V)) i = bucketAt s.buckets i := by
          unfold bucketAt
          exact getD_set_ne _ _ _ _ _ (fun h => hj h.symm)
        rw [this]
        exact hnd i hi
    · have hset := sumChainsB_set s.buckets (TrashMap.hash hashFn s.buckets.length key)
        (⟨c⟩ : Bucket K V) hi0
      have hclen := chainRemove_length hcr
      have hsum : sumChainsB s.buckets ≤ s.elements := hInv.2
      have he2 : (⟨c⟩ : Bucket K V).chain.length = c.length := rfl
      rw [he2] at hset
      show sumChainsB (s.buckets.set (TrashMap.hash hashFn s.buckets.length key)
        (⟨c⟩ : Bucket K V)) ≤ s.elements - 1
      omega

/-- The states reachable through the public constructor and the mutating
operations. -/
inductive Reachable : TrashMap K V → Prop
  | new : Reachable TrashMap.new
  | insert (s : TrashMap K V) (key : K) (value : V) :
      Reachable s → Reachable (s.insert hashFn key value)
  | remove (s : TrashMap K V) (key : K) :
      Reachable s → Reachable (s.remove hashFn key).2

theorem Inv_new : Inv hashFn (TrashMap.new : TrashMap K V) := by
  refine ⟨⟨?_, ?_, ?_⟩, ?_⟩
  · show 0 < (make_buckets TRASH_MAP_START_SIZE : List (Bucket K V)).length
    rw [length_make_buckets]
    decide
  · intro i hi e he
    have : bucketAt (make_buckets TRASH_MAP_START_SIZE : List (Bucket K V)) i = ⟨[]⟩ :=
      bucketAt_make_buckets _ _
    rw [show (TrashMap.new : TrashMap K V).buckets =
      make_buckets TRASH_MAP_START_SIZE from rfl, this] at he
    simp at he
  · intro i hi
    have : bucketAt (make_buckets TRASH_MAP_START_SIZE : List (Bucket K V)) i = ⟨[]⟩ :=
      bucketAt_make_buckets _ _
    rw [show (TrashMap.new : TrashMap K V).buckets =
      make_buckets TRASH_MAP_START_SIZE from rfl, this]
    simp
  · show sumChains (TrashMap.new : TrashMap K V) ≤ 0
    rw [sumChains_eq_sumChainsB]
    show sumChainsB (make_buckets TRASH_MAP_START_SIZE : List (Bucket K V)) ≤ 0
    rw [sumChainsB_make_buckets]

theorem Reachable_Inv {s : TrashMap K V} (h : Reachable hashFn s) : Inv hashFn s := by
  induction h with
  | new => exact Inv_new hashFn
  | insert s key value _ ih => exact Inv_insert hashFn ih key value
  | remove s key _ ih => exact Inv_remove hashFn ih key

end Trash

namespace Trash

/-! ### Load factor, presence, insertion sequences -/

variable {K V : Type} [DecidableEq K] (hashFn : K → Nat)

/-- The load-factor invariant: reachable states never exceed the 0.75
threshold (`elements / len ≤ 0.75`, i.e. `4 * elements ≤ 3 * len`). -/
theorem Reachable_loadFactor {s : TrashMap K V} (h : Reachable hashFn s) :
    4 * s.elements ≤ 3 * s.buckets.length := by
  induction h with
  | new =>
    show 4 * 0 ≤ 3 * (make_buckets TRASH_MAP_START_SIZE : List (Bucket K V)).length
    rw [length_make_buckets]
    decide
  | insert s key value hr ih =>
    have h0 : 0 < s.buckets.length := (Reachable_Inv hashFn hr).1.1
    rw [insert_unfold]
    by_cases hcond : 4 * (s.elements + 1) >
        3 * (insert_into_buckets hashFn s.buckets key value).length
    · rw [if_pos hcond]
      have hlen := grow_buckets_length hashFn
        (⟨insert_into_buckets hashFn s.buckets key value, s.elements + 1⟩ : TrashMap K V)
      have helem := grow_elements hashFn
        (⟨insert_into_buckets hashFn s.buckets key value, s.elements + 1⟩ : TrashMap K V)
      have hiib : (insert_into_buckets hashFn s.buckets key value).length =
        s.buckets.length := length_insert_into_buckets hashFn s.buckets key value
      have hfnp := le_find_next_prime
        ((⟨insert_into_buckets hashFn s.buckets key value, s.elements + 1⟩ :
          TrashMap K V).buckets.length * 2 + 1)
      have hb : (⟨insert_into_buckets hashFn s.buckets key value, s.elements + 1⟩ :
          TrashMap K V).buckets.length = s.buckets.length := hiib
      have hXe : (⟨insert_into_buckets hashFn s.buckets key value, s.elements + 1⟩ :
          TrashMap K V).elements = s.elements + 1 := rfl
      rw [hb] at hlen hfnp
      rw [hXe] at helem
      omega
    · rw [if_neg hcond]
      have hiib : (insert_into_buckets hashFn s.buckets key value).length =
        s.buckets.length := length_insert_into_buckets hashFn s.buckets key value
      show 4 * (s.elements + 1) ≤ 3 * (insert_into_buckets hashFn s.buckets key value).length
      omega
  | remove s key hr ih =>
    rw [remove_unfold]
    rcases hcr : chainRemove key
        (bucketAt s.buckets (TrashMap.hash hashFn s.buckets.length key)).chain with - | c
    · exact ih
    · show 4 * (s.elements - 1) ≤
        3 * (s.buckets.set (TrashMap.hash hashFn s.buckets.length key)
          (⟨c⟩ : Bucket K V)).length
      rw [List.length_set]
      omega

/-- Presence of a key is membership of the iteration key list. -/
theorem get_ne_none_iff {s : TrashMap K V} (hwf : BucketsWF hashFn s.buckets) (key : K) :
    s.get hashFn key ≠ none ↔ key ∈ s.iter.map Prod.fst := by
  rw [TrashMap.get_eq_bGet, ← chainGet_flatten_eq hashFn hwf key]
  show ¬ _ = _ ↔ key ∈ ((s.buckets.map Bucket.chain).flatten).map Prod.fst
  rw [← not_iff_not, chainGet_eq_none]
  simp

theorem iter_length_eq_sumChains (s : TrashMap K V) : s.iter.length = sumChains s := by
  show ((s.buckets.map Bucket.chain).flatten).length = _
  rw [List.length_flatten, List.map_map]
  rfl

/-- Folding a list of insertions through the public `insert`. -/
def insertSeq (ps : List (K × V)) (s : TrashMap K V) : TrashMap K V :=
  ps.foldl (fun s e => s.insert hashFn e.1 e.2) s

theorem Inv_insertSeq : ∀ (ps : List (K × V)) (s : TrashMap K V),
    Inv hashFn s → Inv hashFn (insertSeq hashFn ps s) := by
  intro ps
  induction ps with
  | nil => intro s h; exact h
  | cons p rest ih =>
    intro s h
    exact ih _ (Inv_insert hashFn h p.1 p.2)

theorem get_insertSeq : ∀ (ps : List (K × V)) (s : TrashMap K V) (key : K),
    Inv hashFn s →
    (insertSeq hashFn ps s).get hashFn key =
      (chainGet key ps.reverse).or (s.get hashFn key) := by
  intro ps
  induction ps with
  | nil => intro s key h; simp [insertSeq, chainGet]
  | cons p rest ih =>
    intro s key h
    have step : (insertSeq hashFn (p :: rest) s).get hashFn key =
        (chainGet key rest.reverse).or ((s.insert hashFn p.1 p.2).get hashFn key) :=
      ih (s.insert hashFn p.1 p.2) key (Inv_insert hashFn h p.1 p.2)
    rw [step, get_insert hashFn h p.1 key p.2]
    have hrev : (p :: rest).reverse = rest.reverse ++ [p] := by simp
    rw [hrev, chainGet_append, Option.or_assoc]
    congr 1
    by_cases hk : key = p.1
    · subst hk
      simp [chainGet]
    · simp [chainGet, hk, Ne.symm hk]

/-- An insert of an absent key adds exactly one stored pair. -/
theorem sumChains_insert_absent {s : TrashMap K V} (hInv : Inv hashFn s) {key : K}
    (value : V) (habs : s.get hashFn key = none) :
    sumChains (s.insert hashFn key value) = sumChains s + 1 := by
  have h0 : 0 < s.buckets.length := hInv.1.1
  have hbabs : bGet hashFn s.buckets key = none := habs
  have hwf1 : BucketsWF hashFn
      (⟨insert_into_buckets hashFn s.buckets key value, s.elements + 1⟩ : TrashMap K V).buckets :=
    BucketsWF_insert_into_buckets hashFn key value hInv.1
  have hbare : sumChainsB (insert_into_buckets hashFn s.buckets key value) =
      sumChainsB s.buckets + 1 :=
    sumChainsB_insert_into_buckets_absent hashFn s.buckets key value h0 hbabs
  rw [insert_unfold]
  split
  · rw [sumChains_eq_sumChainsB, sumChains_eq_sumChainsB]
    have hgrow := grow_sumChains hashFn hwf1
    rw [sumChains_eq_sumChainsB, sumChains_eq_sumChainsB] at hgrow
    rw [hgrow]
    exact hbare
  · rw [sumChains_eq_sumChainsB, sumChains_eq_sumChainsB]
    exact hbare

/-- A successful remove drops exactly one stored pair. -/
theorem sumChains_remove {s : TrashMap K V} (hInv : Inv hashFn s) (key : K) :
    (s.remove hashFn key).1 = true →
    sumChains (s.remove hashFn key).2 + 1 = sumChains s := by
  rw [remove_unfold]
  rcases hcr : chainRemove key
      (bucketAt s.buckets (TrashMap.hash hashFn s.buckets.length key)).chain with - | c
  · intro h
    cases h
  · intro _
    have hi0 : TrashMap.hash hashFn s.buckets.length key < s.buckets.length :=
      hash_lt hashFn _ key hInv.1.1
    have hset := sumChainsB_set s.buckets (TrashMap.hash hashFn s.buckets.length key)
      (⟨c⟩ : Bucket K V) hi0
    have hclen := chainRemove_length hcr
    have he2 : (⟨c⟩ : Bucket K V).chain.length = c.length := rfl
    rw [he2] at hset
    show sumChainsB (s.buckets.set (TrashMap.hash hashFn s.buckets.length key)
      (⟨c⟩ : Bucket K V)) + 1 = sumChainsB s.buckets
    omega

theorem remove_elements {s : TrashMap K V} (key : K) :
    (s.remove hashFn key).1 = true →
    (s.remove hashFn key).2.elements = s.elements - 1 := by
  rw [remove_unfold]
  rcases hcr : chainRemove key
      (bucketAt s.buckets (TrashMap.hash hashFn s.buckets.length key)).chain with - | c
  · intro h
    cases h
  · intro _
    rfl

theorem remove_false_eq {s : TrashMap K V} (key : K) :
    (s.remove hashFn key).1 = false → (s.remove hashFn key).2 = s := by
  rw [remove_unfold]
  rcases hcr : chainRemove key
      (bucketAt s.buckets (TrashMap.hash hashFn s.buckets.length key)).chain with - | c
  · intro _
    rfl
  · intro h
    cases h

end Trash

namespace Trash

/-! ### Iteration order under remove; operation traces -/

variable {K V : Type} [DecidableEq K] (hashFn : K → Nat)

theorem chainRemove_eq_filter {key : K} {c c' : List (K × V)}
    (hnd : (c.map Prod.fst).Nodup) (h : chainRemove key c = some c') :
    c' = c.filter (fun e => decide (e.1 ≠ key)) := by
  obtain ⟨pre, w, post, rfl, rfl, hpre⟩ := chainRemove_some h
  rw [List.map_append, List.map_cons] at hnd
  obtain ⟨h1, h2, hdisj⟩ := List.nodup_append.mp hnd
  have hprefilter : pre.filter (fun e => decide (e.1 ≠ key)) = pre := by
    rw [List.filter_eq_self]
    intro e he
    rw [chainGet_eq_none] at hpre
    simp only [decide_eq_true_eq]
    intro hc
    refine hpre ?_
    rw [← hc]
    exact List.mem_map_of_mem Prod.fst he
  have hpostfilter : post.filter (fun e => decide (e.1 ≠ key)) = post := by
    rw [List.filter_eq_self]
    intro e he
    simp only [decide_eq_true_eq]
    intro hc
    have hm : key ∈ post.map Prod.fst := by
      rw [← hc]
      exact List.mem_map_of_mem Prod.fst he
    exact (List.nodup_cons.mp h2).1 hm
  rw [List.filter_append, hprefilter]
  simp only [List.filter_cons]
  have : (decide (key ≠ key)) = false := by simp
  rw [this, hpostfilter]
  simp

theorem filter_flatten_eq_self {α : Type} (p : α → Bool) :
    ∀ (L : List (List α)), (∀ l ∈ L, l.filter p = l) → L.flatten.filter p = L.flatten := by
  intro L
  induction L with
  | nil => intro h; rfl
  | cons l rest ih =>
    intro h
    rw [List.flatten_cons, List.filter_append, h l (List.mem_cons_self _ _),
      ih (fun l hl => h l (List.mem_cons_of_mem _ hl))]

theorem flatten_set_filter {α : Type} (p : α → Bool) :
    ∀ (L : List (List α)) (i : Nat) (l' : List α), i < L.length →
    l' = (L.getD i []).filter p →
    (∀ j, j < L.length → j ≠ i → (L.getD j []).filter p = L.getD j []) →
    (L.set i l').flatten = L.flatten.filter p := by
  intro L
  induction L with
  | nil => intro i l' hi; simp at hi
  | cons l rest ih =>
    intro i l' hi hl' hothers
    cases i with
    | zero =>
      rw [List.set_cons_zero, List.flatten_cons, List.flatten_cons, List.filter_append]
      rw [List.getD_cons_zero] at hl'
      rw [hl']
      congr 1
      refine (filter_flatten_eq_self p rest ?_).symm
      intro l₂ hl₂
      obtain ⟨j, hj, rfl⟩ := List.mem_iff_getElem.mp hl₂
      have hgd : rest.getD j [] = rest[j] := by
        rw [List.getD_eq_getElem?_getD, List.getElem?_eq_getElem hj]
        rfl
      rw [← hgd]
      have := hothers (j + 1) (by simpa using hj) (by omega)
      simpa using this
    | succ i' =>
      rw [List.set_cons_succ, List.flatten_cons, List.flatten_cons, List.filter_append]
      have hl : l.filter p = l := by
        have := hothers 0 (by simp) (by omega)
        simpa using this
      rw [hl]
      congr 1
      refine ih i' l' (by simpa using hi) (by simpa using hl') ?_
      intro j hj hji
      have := hothers (j + 1) (by simpa using hj) (by omega)
      simpa using this

theorem getD_map_chain : ∀ (bs : List (Bucket K V)) (i : Nat),
    (bs.map Bucket.chain).getD i [] = (bucketAt bs i).chain := by
  intro bs
  induction bs with
  | nil => intro i; simp [bucketAt]
  | cons b rest ih =>
    intro i
    cases i with
    | zero => rfl
    | succ j => simpa [bucketAt] using ih j

/-- A remove deletes exactly the entries with the removed key from the
iteration sequence; every other entry keeps its position. -/
theorem remove_iter {s : TrashMap K V} (hInv : Inv hashFn s) (key : K) :
    ((s.remove hashFn key).2).iter = s.iter.filter (fun e => decide (e.1 ≠ key)) := by
  rw [remove_unfold]
  rcases hcr : chainRemove key
      (bucketAt s.buckets (TrashMap.hash hashFn s.buckets.length key)).chain with - | c
  · have habs : s.get hashFn key = none := by
      rw [TrashMap.get_eq_bGet]
      unfold bGet
      rw [Bucket.get_eq_chainGet]
      exact chainRemove_eq_none.mp hcr
    have hall : ∀ e ∈ s.iter, (fun e : K × V => decide (e.1 ≠ key)) e = true := by
      intro e he
      simp only [decide_eq_true_eq]
      intro hc
      have hmem : key ∈ s.iter.map Prod.fst := hc ▸ List.mem_map_of_mem Prod.fst he
      exact ((get_ne_none_iff hashFn hInv.1 key).mpr hmem) habs
    show s.iter = _
    exact (List.filter_eq_self.mpr hall).symm
  · have hi0 : TrashMap.hash hashFn s.buckets.length key < s.buckets.length :=
      hash_lt hashFn _ key hInv.1.1
    show ((s.buckets.set (TrashMap.hash hashFn s.buckets.length key)
        (⟨c⟩ : Bucket K V)).map Bucket.chain).flatten = _
    rw [List.map_set]
    have hc' : c = ((s.buckets.map Bucket.chain).getD
        (TrashMap.hash hashFn s.buckets.length key) []).filter
        (fun e => decide (e.1 ≠ key)) := by
      rw [getD_map_chain]
      exact chainRemove_eq_filter (hInv.1.2.2 _ hi0) hcr
    refine flatten_set_filter _ (s.buckets.map Bucket.chain)
      (TrashMap.hash hashFn s.buckets.length key) ((⟨c⟩ : Bucket K V).chain)
      (by simpa using hi0) hc' ?_
    intro j hj hji
    rw [List.length_map] at hj
    rw [getD_map_chain]
    rw [List.filter_eq_self]
    intro e he
    simp only [decide_eq_true_eq]
    intro hc
    have := hInv.1.2.1 j hj e he
    rw [hc] at this
    exact hji this.symm

/-- A public mutating operation. -/
inductive Op (K V : Type) where
  | ins : K → V → Op K V
  | del : K → Op K V

/-- One step of the public API. -/
def step (s : TrashMap K V) : Op K V → TrashMap K V
  | .ins key value => s.insert hashFn key value
  | .del key => (s.remove hashFn key).2

/-- Run a sequence of public operations. -/
def run (s : TrashMap K V) (ops : List (Op K V)) : TrashMap K V :=
  ops.foldl (step hashFn) s

/-- A trace is overwrite-free when every insert finds its key absent. -/
def freshb (s : TrashMap K V) : List (Op K V) → Bool
  | [] => true
  | .ins key value :: rest =>
      (s.get hashFn key).isNone && freshb (step hashFn s (.ins key value)) rest
  | .del key :: rest => freshb (step hashFn s (.del key)) rest

/-- Along overwrite-free traces the element counter counts stored pairs
exactly. -/
theorem run_exact_count : ∀ (ops : List (Op K V)) (s : TrashMap K V),
    Inv hashFn s → s.elements = sumChains s → freshb hashFn s ops = true →
    Inv hashFn (run hashFn s ops) ∧
      (run hashFn s ops).elements = sumChains (run hashFn s ops) := by
  intro ops
  induction ops with
  | nil => intro s hInv hcount hfresh; exact ⟨hInv, hcount⟩
  | cons op rest ih =>
    intro s hInv hcount hfresh
    rcases op with ⟨key, value⟩ | ⟨key⟩
    · rw [freshb, Bool.and_eq_true, Option.isNone_iff_eq_none] at hfresh
      have hstep : step hashFn s (.ins key value) = s.insert hashFn key value := rfl
      have hInv' := Inv_insert hashFn hInv key value
      have hcount' : (s.insert hashFn key value).elements =
          sumChains (s.insert hashFn key value) := by
        rw [insert_elements, sumChains_insert_absent hashFn hInv value hfresh.1, hcount]
      have hrun : run hashFn s (.ins key value :: rest) =
          run hashFn (s.insert hashFn key value) rest := rfl
      rw [hrun]
      exact ih _ hInv' hcount' (by rw [← hstep]; exact hfresh.2)
    · rw [freshb] at hfresh
      have hInv' := Inv_remove hashFn hInv key
      have hcount' : (s.remove hashFn key).2.elements =
          sumChains (s.remove hashFn key).2 := by
        rcases hfst : (s.remove hashFn key).1 with - | -
        · rw [remove_false_eq hashFn key hfst, hcount]
        · have h1 := sumChains_remove hashFn hInv key hfst
          have h2 := remove_elements hashFn key hfst
          have h3 : 0 < sumChains s := by omega
          omega
      have hrun : run hashFn s (.del key :: rest) =
          run hashFn (s.remove hashFn key).2 rest := rfl
      rw [hrun]
      exact ih _ hInv' hcount' hfresh

end Trash

namespace Trash

/-! ### Claim theorems -/

/-- The bucket counts produced from the initial size by repeated growth:
`countChain 0 = 3`, `countChain (j+1) = find_next_prime (countChain j * 2 + 1)`. -/
def countChain : Nat → Nat
  | 0 => TRASH_MAP_START_SIZE
  | j + 1 => find_next_prime (countChain j * 2 + 1)

theorem countChain_prime_le_twelve : ∀ j, j ≤ 12 → Nat.Prime (countChain j) := by
  intro j hj
  interval_cases j
  · have h : countChain 0 = 3 := by decide
    rw [h]; norm_num
  · have h : countChain 1 = 7 := by decide
    rw [h]; norm_num
  · have h : countChain 2 = 17 := by decide
    rw [h]; norm_num
  · have h : countChain 3 = 37 := by decide
    rw [h]; norm_num
  · have h : countChain 4 = 79 := by decide
    rw [h]; norm_num
  · have h : countChain 5 = 163 := by decide
    rw [h]; norm_num
  · have h : countChain 6 = 331 := by decide
    rw [h]; norm_num
  · have h : countChain 7 = 673 := by decide
    rw [h]; norm_num
  · have h : countChain 8 = 1361 := by decide
    rw [h]; norm_num
  · have h : countChain 9 = 2729 := by decide
    rw [h]; norm_num
  · have h : countChain 10 = 5471 := by decide
    rw [h]; norm_num
  · have h : countChain 11 = 10949 := by decide
    rw [h]; norm_num
  · have h : countChain 12 = 21911 := by decide
    rw [h]; norm_num

theorem Reachable_length_mem_countChain {K V : Type} [DecidableEq K] (hashFn : K → Nat)
    {s : TrashMap K V} (h : Reachable hashFn s) :
    ∃ j, s.buckets.length = countChain j := by
  induction h with
  | new =>
    refine ⟨0, ?_⟩
    show (make_buckets TRASH_MAP_START_SIZE : List (Bucket K V)).length = _
    rw [length_make_buckets]
    rfl
  | insert s key value hr ih =>
    obtain ⟨j, hj⟩ := ih
    rw [insert_unfold]
    split
    · refine ⟨j + 1, ?_⟩
      rw [grow_buckets_length]
      have hb : (⟨insert_into_buckets hashFn s.buckets key value, s.elements + 1⟩ :
          TrashMap K V).buckets.length = s.buckets.length :=
        length_insert_into_buckets hashFn s.buckets key value
      rw [hb, hj]
      rfl
    · refine ⟨j, ?_⟩
      show (insert_into_buckets hashFn s.buckets key value).length = _
      rw [length_insert_into_buckets]
      exact hj
  | remove s key hr ih =>
    obtain ⟨j, hj⟩ := ih
    rw [remove_unfold]
    rcases hcr : chainRemove key
        (bucketAt s.buckets (TrashMap.hash hashFn s.buckets.length key)).chain with - | c
    · exact ⟨j, hj⟩
    · refine ⟨j, ?_⟩
      show (s.buckets.set (TrashMap.hash hashFn s.buckets.length key)
        (⟨c⟩ : Bucket K V)).length = _
      rw [List.length_set]
      exact hj

/-- C2 (code bug): `is_prime` trial-divides only the half-open range
`3 ≤ i < ⌈√n⌉`, so it misses the divisor `⌈√n⌉` itself.  At the failing
input 9 the divisor 3 equals `closest_sqrt_integer 9 = 3`, lies inside the
claimed inclusive range, yet `is_prime 9` evaluates to `true` although 9
is not prime — contradicting the claim (and the function's evident
intent). -/
theorem claim_C2 :
    is_prime 9 = true ∧ 9 % 3 = 0 ∧ closest_sqrt_integer 9 = 3 ∧ ¬ Nat.Prime 9 :=
  ⟨by decide, by decide, by decide, by decide⟩

/-- C3: `TrashMap::insert` increments the element counter by exactly 1 on
every call, unconditionally — also when the key was already present and
was merely overwritten (growth never changes the counter). -/
theorem claim_C3 {K V : Type} [DecidableEq K] (hashFn : K → Nat)
    (s : TrashMap K V) (key : K) (value : V) :
    (s.insert hashFn key value).len = s.len + 1 :=
  insert_elements hashFn s key value

/-- Number of low significand bits a natural number loses when converted
to `f32`: zero below `2 ^ 24`, otherwise how often it must be halved to
fall below `2 ^ 24` (fuel `n` always suffices). -/
def f32ShiftAux : Nat → Nat → Nat
  | 0, _ => 0
  | fuel + 1, n => if n < 2 ^ 24 then 0 else f32ShiftAux fuel (n / 2) + 1

def f32Shift (n : Nat) : Nat := f32ShiftAux n n

/-- Round a natural number to a multiple of `2 ^ k`, half to even. -/
def f32RoundK (n k : Nat) : Nat :=
  if k = 0 then n
  else
    if 2 ^ k / 2 < n % 2 ^ k ∨ (n % 2 ^ k = 2 ^ k / 2 ∧ n / 2 ^ k % 2 = 1) then
      (n / 2 ^ k + 1) * 2 ^ k
    else n / 2 ^ k * 2 ^ k

/-- The value of `n as f32` (round to nearest, ties to even): exact below
`2 ^ 24`, otherwise the significand is cut to 24 bits with
round-half-to-even.  Every `usize` converts to an integral `f32` value,
so the result stays a `Nat`. -/
def f32Round (n : Nat) : Nat := f32RoundK n (f32Shift n)

/-- Faithful model of `compute_load_factor() > TRASH_MAP_LOAD_FACTOR_THRESH`:
both counters are rounded to `f32` (`f32Round`), their quotient is
rounded again by the `f32` division, and the result is compared with
`0.75`.  Since `0.75` is an `f32` value with an even significand, the
rounded quotient exceeds `0.75` exactly when the exact quotient of the
rounded operands exceeds the rounding midpoint `3 / 4 + 2 ^ (-26)` —
scaled to integers below.  A zero denominator gives `inf` (positive
numerator, compares true) or `NaN` (zero numerator, compares false),
which the first branch reproduces. -/
def compute_load_factor_exceeds_f32 (elements len : Nat) : Bool :=
  if f32Round len = 0 then decide (0 < f32Round elements)
  else decide (2 ^ 28 * f32Round elements > (3 * 2 ^ 26 + 4) * f32Round len)

theorem f32Round_of_lt {n : Nat} (h : n < 2 ^ 24) : f32Round n = n := by
  have hk : f32Shift n = 0 := by
    unfold f32Shift
    cases n with
    | zero => rfl
    | succ m =>
      unfold f32ShiftAux
      rw [if_pos h]
  unfold f32Round
  rw [hk]
  unfold f32RoundK
  rw [if_pos rfl]

/-- Below `2 ^ 24` the `f32` load-factor test coincides with the exact
integer test the embedding uses in `TrashMap.insert`. -/
theorem load_factor_f32_agrees_below {e l : Nat} (he : e < 2 ^ 24) (hl : l < 2 ^ 24) :
    compute_load_factor_exceeds_f32 e l = decide (4 * e > 3 * l) := by
  unfold compute_load_factor_exceeds_f32
  rw [f32Round_of_lt he, f32Round_of_lt hl]
  by_cases h0 : l = 0
  · subst h0
    rw [if_pos rfl]
    rw [decide_eq_decide]
    omega
  · rw [if_neg h0]
    rw [decide_eq_decide]
    constructor
    · intro h
      omega
    · intro h
      omega

/-- C6 (code bug): the claimed invariant fails on the code at the first
reachable state whose bucket count exceeds `2 ^ 24`.  After 16844004
inserts of distinct keys the table has 22458671 buckets and 16844004
elements; the `f32` comparison rounds the bucket count up to 22458672,
obtains the quotient exactly `0.75`, and does not grow — yet the true
post-insert load factor `16844004 / 22458671` exceeds `0.75`, violating
the claim immediately after that insert.  The embedded integer test
(exact below `2 ^ 24` by `load_factor_f32_agrees_below`) grows here, so
the invariant is provable of the model but not true of the program. -/
theorem claim_C6 :
    compute_load_factor_exceeds_f32 16844004 22458671 = false ∧
    f32Round 22458671 = 22458672 ∧
    f32Round 16844004 = 16844004 ∧
    4 * 16844004 = 3 * 22458672 ∧
    4 * 16844004 > 3 * 22458671 :=
  ⟨by decide, by decide, by decide, by decide, by decide⟩

/-- C7 (counterexample): `grow` does not in general set the bucket count to
the next prime: from a 59-bucket table it computes
`find_next_prime (2 * 59 + 1) = 121 = 11 * 11`, which is not prime —
`is_prime` wrongly accepts odd prime squares because its trial division
stops short of `⌈√n⌉`. -/
theorem claim_C7_counterexample :
    (⟨make_buckets 59, 0⟩ : TrashMap Nat Nat).buckets.length = 59 ∧
    ((⟨make_buckets 59, 0⟩ : TrashMap Nat Nat).grow id).buckets.length = 121 ∧
    ¬ Nat.Prime 121 :=
  ⟨by decide, by decide, by norm_num⟩

/-- C7 (amended): the bucket count starts at the prime 3 and every grow
sets it to `find_next_prime (2 * len + 1)` — the first candidate accepted
by the (buggy) `is_prime`, which is the next prime unless an odd prime
square intervenes.  Every reachable bucket count lies on the resulting
chain 3, 7, 17, 37, ..., and at least its first 13 members (up to 21911)
are genuinely prime. -/
theorem claim_C7 :
    countChain 0 = TRASH_MAP_START_SIZE ∧
    (∀ j, j ≤ 12 → Nat.Prime (countChain j)) ∧
    (∀ (K V : Type) [DecidableEq K] (hashFn : K → Nat) (s : TrashMap K V),
      (s.grow hashFn).buckets.length = find_next_prime (s.buckets.length * 2 + 1)) ∧
    (∀ (K V : Type) [DecidableEq K] (hashFn : K → Nat) (s : TrashMap K V),
      Reachable hashFn s → ∃ j, s.buckets.length = countChain j) :=
  ⟨rfl, countChain_prime_le_twelve,
   fun K V _ hashFn s => grow_buckets_length hashFn s,
   fun K V _ hashFn s h => Reachable_length_mem_countChain hashFn h⟩

theorem claim_C7_witness : Nat.Prime (countChain 12) :=
  claim_C7.2.1 12 (by decide)

/-- C10: in every reachable state the bucket array is nonempty and every
hash-derived slot index is strictly below the bucket count, so the
indexing in `insert`, `get` and `remove` and the modulo in `hash` are
always well-defined. -/
theorem claim_C10 {K V : Type} [DecidableEq K] (hashFn : K → Nat)
    {s : TrashMap K V} (h : Reachable hashFn s) :
    0 < s.buckets.length ∧
    ∀ key, TrashMap.hash hashFn s.buckets.length key < s.buckets.length := by
  have h0 : 0 < s.buckets.length := (Reachable_Inv hashFn h).1.1
  exact ⟨h0, fun key => hash_lt hashFn _ key h0⟩

theorem claim_C10_witness :
    0 < (TrashMap.new : TrashMap Nat Nat).buckets.length ∧
    ∀ key, TrashMap.hash id (TrashMap.new : TrashMap Nat Nat).buckets.length key <
      (TrashMap.new : TrashMap Nat Nat).buckets.length :=
  claim_C10 id Reachable.new

end Trash

namespace Trash

/-- C1 (counterexample): two inserts of the same key from a fresh map leave
one stored pair (`sumChains = 1`, iteration yields only `(0, 20)`), yet
`len()` reports 2 — `insert` increments the counter on the overwrite, so
`len` is neither the number of distinct present keys nor the sum of chain
lengths. -/
theorem claim_C1_counterexample :
    (((TrashMap.new : TrashMap Nat Nat).insert id 0 10).insert id 0 20).len = 2 ∧
    sumChains (((TrashMap.new : TrashMap Nat Nat).insert id 0 10).insert id 0 20) = 1 ∧
    (((TrashMap.new : TrashMap Nat Nat).insert id 0 10).insert id 0 20).iter = [(0, 20)] :=
  ⟨by decide, by decide, by decide⟩

/-- C1 (amended): along any operation sequence from the empty map in which
no insert overwrites a key already present, `len()` equals the number of
stored pairs, which is the number of distinct keys currently present: the
iteration list has pairwise-distinct keys, a key is present exactly when
it occurs there, and `len` is its length (equivalently the sum of chain
lengths).  In general `len` exceeds that count by the number of
overwriting inserts. -/
theorem claim_C1 {K V : Type} [DecidableEq K] (hashFn : K → Nat) (ops : List (Op K V))
    (hfresh : freshb hashFn TrashMap.new ops = true) :
    (run hashFn TrashMap.new ops).len = sumChains (run hashFn TrashMap.new ops) ∧
    ((run hashFn TrashMap.new ops).iter.map Prod.fst).Nodup ∧
    (∀ key, (run hashFn TrashMap.new ops).get hashFn key ≠ none ↔
      key ∈ (run hashFn TrashMap.new ops).iter.map Prod.fst) ∧
    (run hashFn TrashMap.new ops).len = (run hashFn TrashMap.new ops).iter.length := by
  have hnew : Inv hashFn (TrashMap.new : TrashMap K V) := Inv_new hashFn
  have h0 : (TrashMap.new : TrashMap K V).elements =
      sumChains (TrashMap.new : TrashMap K V) := by
    rw [sumChains_eq_sumChainsB]
    show 0 = sumChainsB (make_buckets TRASH_MAP_START_SIZE : List (Bucket K V))
    rw [sumChainsB_make_buckets]
  obtain ⟨hInv, hcount⟩ := run_exact_count hashFn ops TrashMap.new hnew h0 hfresh
  refine ⟨hcount, flatten_keys_nodup hashFn hInv.1,
    fun key => get_ne_none_iff hashFn hInv.1 key, ?_⟩
  rw [iter_length_eq_sumChains]
  exact hcount

theorem claim_C1_witness :
    (run id TrashMap.new [Op.ins 0 1, Op.ins 1 2, Op.ins 2 3, Op.ins 5 4, Op.del 1]).len =
      sumChains (run id TrashMap.new
        [Op.ins 0 1, Op.ins 1 2, Op.ins 2 3, Op.ins 5 4, Op.del 1]) :=
  (claim_C1 id [Op.ins 0 1, Op.ins 1 2, Op.ins 2 3, Op.ins 5 4, Op.del 1] (by decide)).1

/-- C4: after inserting any sequence of pairwise-distinct keys into a fresh
map through the public `insert` (resizes included), `get` returns the
value inserted for each of those keys. -/
theorem claim_C4 {K V : Type} [DecidableEq K] (hashFn : K → Nat) (ps : List (K × V))
    (key : K) (value : V) (hnd : (ps.map Prod.fst).Nodup) (hmem : (key, value) ∈ ps) :
    (insertSeq hashFn ps TrashMap.new).get hashFn key = some value := by
  rw [get_insertSeq hashFn ps TrashMap.new key (Inv_new hashFn)]
  have hget_new : (TrashMap.new : TrashMap K V).get hashFn key = none := by
    rw [TrashMap.get_eq_bGet]
    exact bGet_make_buckets hashFn _ key
  rw [hget_new, Option.or_none]
  have hndrev : (ps.reverse.map Prod.fst).Nodup := by
    rw [List.map_reverse]
    exact List.nodup_reverse.mpr hnd
  exact chainGet_of_mem_nodup hndrev (by simpa using hmem)

theorem claim_C4_witness :
    (insertSeq id [(0, 10), (1, 11), (2, 12), (9, 13)]
      (TrashMap.new : TrashMap Nat Nat)).get id 9 = some 13 :=
  claim_C4 id [(0, 10), (1, 11), (2, 12), (9, 13)] 9 13 (by decide) (by decide)

/-- C5: on any state satisfying the integrity invariant, `remove key`
returns `true` exactly when `key` is present; on success the key becomes
absent, `len` drops by exactly 1, and an immediately repeated `remove`
returns `false` and leaves the state untouched. -/
theorem claim_C5 {K V : Type} [DecidableEq K] (hashFn : K → Nat)
    (s : TrashMap K V) (hInv : Inv hashFn s) (key : K) :
    ((s.remove hashFn key).1 = true ↔ s.get hashFn key ≠ none) ∧
    ((s.remove hashFn key).1 = true →
      ((s.remove hashFn key).2.get hashFn key = none ∧
       (s.remove hashFn key).2.len + 1 = s.len ∧
       ((s.remove hashFn key).2.remove hashFn key).1 = false ∧
       ((s.remove hashFn key).2.remove hashFn key).2 = (s.remove hashFn key).2)) := by
  refine ⟨remove_fst_iff hashFn s key, ?_⟩
  intro htrue
  have hInv2 : Inv hashFn (s.remove hashFn key).2 := Inv_remove hashFn hInv key
  have hiter := remove_iter hashFn hInv key
  have hget2 : (s.remove hashFn key).2.get hashFn key = none := by
    by_contra hne
    have hmem := (get_ne_none_iff hashFn hInv2.1 key).mp hne
    rw [hiter] at hmem
    obtain ⟨e, he, hek⟩ := List.mem_map.mp hmem
    have hfl := (List.mem_filter.mp he).2
    rw [hek] at hfl
    simp at hfl
  have hpresent : s.get hashFn key ≠ none := (remove_fst_iff hashFn s key).mp htrue
  have hmem0 := (get_ne_none_iff hashFn hInv.1 key).mp hpresent
  have hlen1 : 0 < s.iter.length := by
    have hne : s.iter.map Prod.fst ≠ [] := List.ne_nil_of_mem hmem0
    have := List.length_pos.mpr hne
    rwa [List.length_map] at this
  have hsum1 : 1 ≤ sumChains s := by
    rw [← iter_length_eq_sumChains]
    omega
  have hsum : sumChains s ≤ s.elements := hInv.2
  have helem := remove_elements hashFn key htrue
  have hfalse : ((s.remove hashFn key).2.remove hashFn key).1 = false := by
    rcases hb : ((s.remove hashFn key).2.remove hashFn key).1 with - | -
    · rfl
    · exact absurd hget2 (by
        have := (remove_fst_iff hashFn (s.remove hashFn key).2 key).mp hb
        simpa using this)
  refine ⟨hget2, ?_, hfalse, remove_false_eq hashFn key hfalse⟩
  show (s.remove hashFn key).2.elements + 1 = s.elements
  omega

theorem claim_C5_witness :
    ((insertSeq id [(0, 1), (1, 2)] (TrashMap.new : TrashMap Nat Nat)).remove id 0).1 = true ↔
      (insertSeq id [(0, 1), (1, 2)] (TrashMap.new : TrashMap Nat Nat)).get id 0 ≠ none :=
  (claim_C5 id (insertSeq id [(0, 1), (1, 2)] TrashMap.new) (by decide) 0).1

/-- C8: on any state satisfying the integrity invariant, `grow` changes
only the bucket layout: every lookup is unchanged, the element counter and
the number of stored pairs are unchanged, and each key still occurs
exactly once in the iteration sequence. -/
theorem claim_C8 {K V : Type} [DecidableEq K] (hashFn : K → Nat)
    (s : TrashMap K V) (hInv : Inv hashFn s) :
    (∀ key, (s.grow hashFn).get hashFn key = s.get hashFn key) ∧
    (s.grow hashFn).elements = s.elements ∧
    sumChains (s.grow hashFn) = sumChains s ∧
    ((s.grow hashFn).iter.map Prod.fst).Nodup :=
  ⟨fun key => grow_get hashFn hInv.1 key, grow_elements hashFn s,
   grow_sumChains hashFn hInv.1,
   flatten_keys_nodup hashFn (grow_BucketsWF hashFn hInv.1)⟩

theorem claim_C8_witness :
    ((insertSeq id [(3, 0), (1, 1)] (TrashMap.new : TrashMap Nat Nat)).grow id).get id 3 =
      (insertSeq id [(3, 0), (1, 1)] (TrashMap.new : TrashMap Nat Nat)).get id 3 :=
  (claim_C8 id (insertSeq id [(3, 0), (1, 1)] TrashMap.new) (by decide)).1 3

/-- C9 (counterexample): re-inserting the existing key 3 (an overwrite)
into the map `{3 ↦ 0, 1 ↦ 1}` still increments the counter, crosses the
load-factor threshold and triggers a rehash, after which the untouched key
1 has moved from after 3 to before 3 in iteration order — contradicting
the claim that an overwrite leaves every untouched key's relative position
unchanged. -/
theorem claim_C9_counterexample :
    ((((TrashMap.new : TrashMap Nat Nat).insert id 3 0).insert id 1 1).iter.map Prod.fst
        = [3, 1]) ∧
    (((((TrashMap.new : TrashMap Nat Nat).insert id 3 0).insert id 1 1).insert id 3 2).iter.map
        Prod.fst = [1, 3]) :=
  ⟨by decide, by decide⟩

/-- C9 (amended): iteration concatenates the chains in bucket-array order;
within a bucket a brand-new key is placed at the front of the chain, an
overwrite updates its entry in place (key order and all other entries
unchanged), and a remove deletes exactly the removed key's entry from the
iteration sequence, preserving every other entry's position.  At the map
level a brand-new key is placed at the front of its bucket's chain
whenever the insert does not trigger a grow; an overwrite that does
trigger a grow (possible because the counter also counts overwrites) may
reorder iteration, as the counterexample shows. -/
theorem claim_C9 {K V : Type} [DecidableEq K] (hashFn : K → Nat) :
    (∀ s : TrashMap K V, s.iter = (s.buckets.map Bucket.chain).flatten) ∧
    (∀ (b : Bucket K V) (key : K) (value : V), chainGet key b.chain = none →
      (b.insert key value).chain = (key, value) :: b.chain) ∧
    (∀ (b : Bucket K V) (key : K) (value : V), chainGet key b.chain ≠ none →
      ((b.insert key value).chain.map Prod.fst = b.chain.map Prod.fst ∧
       (b.insert key value).chain.filter (fun e => decide (e.1 ≠ key)) =
         b.chain.filter (fun e => decide (e.1 ≠ key)))) ∧
    (∀ (s : TrashMap K V) (key : K), Inv hashFn s →
      ((s.remove hashFn key).2).iter = s.iter.filter (fun e => decide (e.1 ≠ key))) ∧
    (∀ (s : TrashMap K V) (key : K) (value : V), Inv hashFn s →
      s.get hashFn key = none →
      4 * (s.elements + 1) ≤ 3 * s.buckets.length →
      (s.insert hashFn key value).buckets =
        s.buckets.set (TrashMap.hash hashFn s.buckets.length key)
          ⟨(key, value) ::
            (bucketAt s.buckets (TrashMap.hash hashFn s.buckets.length key)).chain⟩) := by
  refine ⟨fun s => rfl, ?_, ?_, ?_, ?_⟩
  · intro b key value habs
    exact Bucket.insert_chain_of_absent habs
  · intro b key value hne
    have howf : overwriteFirst key value b.chain ≠ none :=
      fun h => hne (overwriteFirst_eq_none.mp h)
    obtain ⟨c2, hc2⟩ := Option.ne_none_iff_exists'.mp howf
    rw [Bucket.insert_chain_of_present hc2]
    exact ⟨overwriteFirst_keys hc2, overwriteFirst_filter hc2⟩
  · intro s key hInv
    exact remove_iter hashFn hInv key
  · intro s key value hInv habs hng
    rw [insert_unfold, if_neg (by rw [length_insert_into_buckets]; omega)]
    show insert_into_buckets hashFn s.buckets key value = _
    have hchain : chainGet key
        (bucketAt s.buckets (TrashMap.hash hashFn s.buckets.length key)).chain = none := by
      rw [← Bucket.get_eq_chainGet]
      exact habs
    have hb : (bucketAt s.buckets (TrashMap.hash hashFn s.buckets.length key)).insert
        key value =
        ⟨(key, value) ::
          (bucketAt s.buckets (TrashMap.hash hashFn s.buckets.length key)).chain⟩ := by
      have h1 : (bucketAt s.buckets (TrashMap.hash hashFn s.buckets.length key)).insert
          key value =
          ⟨((bucketAt s.buckets (TrashMap.hash hashFn s.buckets.length key)).insert
            key value).chain⟩ := rfl
      rw [h1, Bucket.insert_chain_of_absent hchain]
    show s.buckets.set (TrashMap.hash hashFn s.buckets.length key)
        ((bucketAt s.buckets (TrashMap.hash hashFn s.buckets.length key)).insert key value) = _
    rw [hb]

theorem claim_C9_witness :
    ((⟨[(5, 1)]⟩ : Bucket Nat Nat).insert 3 7).chain = (3, 7) :: [(5, 1)] :=
  (claim_C9 (K := Nat) (V := Nat) id).2.1 ⟨[(5, 1)]⟩ 3 7 (by decide)

end Trash
